import Mathlib


/-!
Verification of the incremental log-to-tree reconstruction engine of the
claude-workflow-viewer repository (server/src/session-watcher.ts, types from
shared/src/index.ts).

Shallow embedding conventions:
* JavaScript strings are Lean `String`s; `charCodeAt` is approximated by the
  character's code point, and the JS whitespace class by space/tab/CR/LF.
* ISO-8601 timestamps are compared in the source only through
  `new Date(t).getTime()`; we embed a timestamp directly as the `Nat` that
  this call returns (claims never depend on the textual format).
* `JSON.parse` of a raw log line is embedded by pairing each line with its
  parse result (`Line.parsed`); the validator and the classifier both consult
  it, exactly as both call `JSON.parse` in the source.
* Fields of the source records that no algorithm reads (isSidechain, cwd,
  sessionId, version, gitBranch, requestId, usage, model, the `raw`
  back-reference stored on nodes for UI inspection) are omitted.
* JS `Map` insertion-order semantics are embedded as association lists
  (`mapSet`), JS `Set` as lists with membership-guarded insertion.
-/

/-- The closed set of node kinds (`NodeType` in shared/src/index.ts). -/
inductive NodeType where
  | user
  | assistant
  | thinking
  | tool_call
  | tool_result
  | agent
  | skill
  | command
  | system
deriving DecidableEq, Repr

/-- Tool invocation input (`Record<string, unknown>` in the source). The
source reads only the keys below, always coerced through
`String(input.k || fallback)`; a present key is `some v`.  `stringified`
stands for `JSON.stringify(input)`, which the source uses only to render
summaries for unrecognized tools. -/
structure ToolInput where
  command : Option String := none
  file_path : Option String := none
  pattern : Option String := none
  description : Option String := none
  prompt : Option String := none
  subagent_type : Option String := none
  skill : Option String := none
  stringified : String := ""
deriving DecidableEq, Repr

/-- `ToolResultContent` from shared/src/index.ts. -/
structure ToolResultContent where
  tool_use_id : String
  content : String
  is_error : Bool
deriving DecidableEq, Repr

/-- `ContentBlock` from shared/src/index.ts: a segment of an assistant
message. -/
inductive ContentBlock where
  | thinking (thinking : String) (signature : Option String)
  | text (text : String)
  | tool_use (id : String) (name : String) (input : ToolInput)
  | tool_result_block (tr : ToolResultContent)
deriving DecidableEq, Repr

/-- An element of a user message's content array.  The source checks only
whether the first element is an object with `type === 'tool_result'`; any
other element is opaque and matters only through its JSON rendering. -/
inductive UserBlock where
  | toolResult (tr : ToolResultContent)
  | other (stringified : String)
deriving DecidableEq, Repr

/-- `UserMessageContent.content : string | ToolResultContent[]`. -/
inductive UserContent where
  | str (s : String)
  | arr (items : List UserBlock)
deriving DecidableEq, Repr

/-- `ToolUseResult` from shared/src/index.ts. -/
structure ToolUseResult where
  stdout : Option String := none
  stderr : Option String := none
  exitCode : Option Int := none
deriving DecidableEq, Repr

/-- `UserMessageEntry` (fields the engine reads). -/
structure UserMessageEntry where
  parentUuid : Option String
  uuid : String
  timestamp : Nat
  message : UserContent
deriving DecidableEq, Repr

/-- `AssistantMessageEntry` (fields the engine reads); `content` is the
message's segment list. -/
structure AssistantMessageEntry where
  parentUuid : Option String
  uuid : String
  timestamp : Nat
  content : List ContentBlock
  toolUseResult : Option ToolUseResult := none
deriving DecidableEq, Repr

/-- `ConversationEntry`: the discriminated union of parsed records. -/
inductive ConversationEntry where
  | user (u : UserMessageEntry)
  | assistant (a : AssistantMessageEntry)
  | fileHistorySnapshot (messageId : String)
deriving DecidableEq, Repr

/-- Result of `JSON.parse` on a line: a recognized record, or some other
JSON value of which `hashLine` can read top-level `uuid` / `messageId`. -/
inductive ParsedJson where
  | entry (e : ConversationEntry)
  | other (uuid : Option String) (messageId : Option String)
deriving DecidableEq, Repr

/-- Outcome of `JSON.parse` on a raw line. -/
inductive LineParse where
  | ok (p : ParsedJson)
  | fail
deriving DecidableEq, Repr

/-- One raw line of the log file together with its parse result (the source
calls `JSON.parse` on the text; see the embedding conventions above). -/
structure Line where
  raw : String
  parsed : LineParse
deriving DecidableEq, Repr

/-- The content payload stored on a node
(`ContentBlock | string | null` in the source). -/
inductive NodeContent where
  | ofString (s : String)
  | ofBlock (b : ContentBlock)
deriving DecidableEq, Repr

/-- `ConversationNode` from shared/src/index.ts.  `children` holds the ids of
the child nodes (the source holds object references; the registry owns every
node, so ids identify them). -/
structure ConversationNode where
  id : String
  parentId : Option String
  timestamp : Nat
  type : NodeType
  summary : String
  content : NodeContent
  toolName : Option String := none
  toolInput : Option ToolInput := none
  toolResult : Option ToolUseResult := none
  agentType : Option String := none
  skillName : Option String := none
  commandName : Option String := none
  children : List String := []
deriving DecidableEq, Repr

/- ## JS string primitives (embedded over the character list) -/

/-- JS whitespace for `trim` (restricted to the ASCII class; the logs never
contain the exotic Unicode spaces). -/
def jsWsp (c : Char) : Bool := c == ' ' || c == '\t' || c == '\n' || c == '\r'

/-- JS `String.prototype.trim`. -/
def jsTrim (s : String) : String :=
  String.mk (((s.data.dropWhile jsWsp).reverse.dropWhile jsWsp).reverse)

/-- Does the character list start with the given pattern? -/
def strStarts : List Char → List Char → Bool
  | [], _ => true
  | _ :: _, [] => false
  | p :: ps, c :: cs => p == c && strStarts ps cs

/-- Does the pattern occur as a contiguous segment of the list? -/
def strHasSeg (pat : List Char) : List Char → Bool
  | [] => strStarts pat []
  | c :: cs => strStarts pat (c :: cs) || strHasSeg pat cs

/-- JS `String.prototype.includes`. -/
def jsIncludes (s pat : String) : Bool := strHasSeg pat.data s.data

/-- JS `String.prototype.startsWith`. -/
def jsStartsWith (s pat : String) : Bool := strStarts pat.data s.data

/-- JS `String.prototype.endsWith`. -/
def jsEndsWith (s pat : String) : Bool := strStarts pat.data.reverse s.data.reverse

/-- JS `String.prototype.slice(0, n)` (and `take` of the first n chars). -/
def jsTake (s : String) (n : Nat) : String := String.mk (s.data.take n)

/-- JS `String.prototype.split('\n')`. -/
def splitNl : List Char → List (List Char)
  | [] => [[]]
  | c :: cs =>
    let r := splitNl cs
    if c == '\n' then [] :: r
    else
      match r with
      | [] => [[c]]
      | l :: ls => (c :: l) :: ls

/-- `content.split('\n')` on a string. -/
def jsSplitLines (s : String) : List String := (splitNl s.data).map String.mk

/-- `contentStr.replace(/\n/g, ' ')`. -/
def jsReplaceNl (s : String) : String :=
  String.mk (s.data.map fun c => if c == '\n' then ' ' else c)

/-- JS `x || y` for optional string fields coerced with `String(...)`:
a missing key and the empty string are both falsy. -/
def jsOrStr (x : Option String) (y : String) : String :=
  match x with
  | some s => if s == "" then y else s
  | none => y

/- ## 32-bit string hash (`hashLine` fallback) -/

/-- JS `ToInt32` coercion (the effect of `hash & hash` on a number). -/
def toInt32 (x : Int) : Int := (x + 2 ^ 31) % 2 ^ 32 - 2 ^ 31

/-- One step of the rolling hash: `hash = ((hash << 5) - hash) + char`
followed by the 32-bit truncation (`hash << 5` is `hash * 32` on an
Int32-range value, so the step is `toInt32 (31 * hash + char)`). -/
def hashStep (h : Int) (c : Char) : Int := toInt32 (31 * h + c.toNat)

/-- The fallback rolling hash over the raw line text. -/
def stringHash (s : String) : Int := s.data.foldl hashStep 0

/- ## Boilerplate filter helpers (regex extraction) -/

/-- Try to match `<openT>` + a run of non-`<` characters + `<closeT>` at the
head of the list; `allowEmpty` distinguishes the `([^<]+)` and `([^<]*)`
captures.  Because the close tag begins with `<`, the maximal run is the only
candidate the regex engine can accept. -/
def matchTagAt (openT closeT : List Char) (allowEmpty : Bool) (cs : List Char) :
    Option (List Char) :=
  if strStarts openT cs then
    let rest := cs.drop openT.length
    let run := rest.takeWhile (fun c => !(c == '<'))
    if (allowEmpty || !run.isEmpty) && strStarts closeT (rest.drop run.length) then some run
    else none
  else none

/-- First match of the tag pattern anywhere in the list (regex search). -/
def findTag (openT closeT : List Char) (allowEmpty : Bool) : List Char → Option (List Char)
  | [] => none
  | c :: cs =>
    match matchTagAt openT closeT allowEmpty (c :: cs) with
    | some r => some r
    | none => findTag openT closeT allowEmpty cs

/-- `content.match(/<command-name>([^<]+)<\/command-name>/)` with the
source's `'command'` fallback. -/
def extractCommandName (content : String) : String :=
  match findTag "<command-name>".data "</command-name>".data false content.data with
  | some r => String.mk r
  | none => "command"

/-- `content.match(/<command-args>([^<]*)<\/command-args>/)` with `''`
fallback. -/
def extractCommandArgs (content : String) : String :=
  match findTag "<command-args>".data "</command-args>".data true content.data with
  | some r => String.mk r
  | none => ""

/-- `truncate(text, maxLength)` from the source: identity when short enough,
otherwise the first `maxLength - 3` characters followed by `"..."`. -/
def truncate (text : String) (maxLength : Nat) : String :=
  if text.length ≤ maxLength then text else jsTake text (maxLength - 3) ++ "..."

/-- The short head the source tests before attempting the skill-JSON parse. -/
def skillJsonHead0 : String := "[\x7b\"type\":\"text\""

/-- The head of the canonical serialization recognized by `parseSkillText`. -/
def skillJsonHead : String := "[\x7b\"type\":\"text\",\"text\":\""

/-- Read a JSON string body up to its closing quote, resolving `\n`, `\t`,
`\r` and pass-through escapes. -/
def readJsonStr : List Char → List Char → Option String
  | [], _ => none
  | '"' :: _, acc => some (String.mk acc.reverse)
  | '\\' :: [], _ => none
  | '\\' :: d :: rest, acc =>
    let u := if d == 'n' then '\n' else if d == 't' then '\t' else if d == 'r' then '\r' else d
    readJsonStr rest (u :: acc)
  | c :: rest, acc => readJsonStr rest (c :: acc)

/-- Modelled from `JSON.parse(content)` in branch 4 of
`detectSystemMessage`: recognizes the canonical serialized shape
`[{"type":"text","text":"..."}...]` and returns the first element's text;
any other input counts as a parse failure, which the source handles by
falling through to the remaining checks.  No claim depends on the exact
parser beyond this fall-through behavior. -/
def parseSkillText (content : String) : Option String :=
  if jsStartsWith content skillJsonHead then
    readJsonStr (content.data.drop skillJsonHead.length) []
  else none

/-- `text.split('\n').find(l => l.trim() && !l.startsWith('#'))?.trim() ||
'Skill prompt'`. -/
def firstMeaningfulLine (text : String) : String :=
  match (jsSplitLines text).find? (fun l => !(jsTrim l).isEmpty && !jsStartsWith l "#") with
  | some l => let t := jsTrim l; if t == "" then "Skill prompt" else t
  | none => "Skill prompt"

/-- `text.match(/^#\s+(.+)$/m)?.[1]`: the first line made of `#`, then at
least one whitespace character, then a nonempty remainder (the corner case
of `\s+` spanning a newline is not modelled; no claim touches it). -/
def headingTitle (text : String) : Option String :=
  (jsSplitLines text).findSome? fun l =>
    match l.data with
    | '#' :: rest =>
      let w := rest.takeWhile jsWsp
      let body := rest.drop w.length
      if w.isEmpty || body.isEmpty then none else some (String.mk body)
    | _ => none

/-- The caveat marker tested by `detectSystemMessage`. -/
def caveatMarker : String := "Caveat: The messages below were generated by the user"

/-- Result record of `detectSystemMessage`. -/
structure SystemInfo where
  isSystem : Bool
  summary : String
  skip : Bool := false
deriving DecidableEq, Repr

/-- `detectSystemMessage(content)`: the ordered boilerplate-filter rules. -/
def detectSystemMessage (content : String) : SystemInfo :=
  if jsIncludes content "<command-name>" && jsIncludes content "<command-message>" then
    { isSystem := true, summary := "Command: " ++ extractCommandName content }
  else if jsIncludes content "<local-command-stdout>" then
    { isSystem := true, summary := "", skip := true }
  else if jsIncludes content "<command-message>" && jsIncludes content "is running" then
    let args := extractCommandArgs content
    { isSystem := true,
      summary := "Running: " ++ extractCommandName content ++
        (if args == "" then "" else " " ++ args) }
  else if jsStartsWith content skillJsonHead0 then
    match parseSkillText content with
    | some text =>
      if jsIncludes text caveatMarker then { isSystem := true, summary := "", skip := true }
      else
        let firstLine := firstMeaningfulLine text
        let title := (headingTitle text).getD firstLine
        { isSystem := true, summary := "Skill: " ++ truncate title 60 }
    | none =>
      if jsIncludes content caveatMarker then { isSystem := true, summary := "", skip := true }
      else { isSystem := false, summary := "" }
  else if jsIncludes content caveatMarker then { isSystem := true, summary := "", skip := true }
  else { isSystem := false, summary := "" }

/-- `getToolResultSummary(content, isError)`. -/
def getToolResultSummary (content : String) (isError : Bool) : String :=
  if isError then "Error: " ++ truncate content 80
  else
    let lines := (jsSplitLines content).filter (fun l => !(jsTrim l).isEmpty)
    if lines.length > 3 then toString lines.length ++ " lines of output"
    else truncate (jsReplaceNl content) 100

/-- `getToolSummary(block)`: the per-tool summary switch. -/
def getToolSummary (name : String) (input : ToolInput) : String :=
  if name == "Bash" then truncate (jsOrStr input.command "") 60
  else if name == "Read" then truncate (jsOrStr input.file_path "") 60
  else if name == "Write" then truncate (jsOrStr input.file_path "") 60
  else if name == "Edit" then truncate (jsOrStr input.file_path "") 60
  else if name == "Glob" then truncate (jsOrStr input.pattern "") 60
  else if name == "Grep" then truncate (jsOrStr input.pattern "") 60
  else if name == "Task" then truncate (jsOrStr input.description (jsOrStr input.prompt "")) 60
  else if name == "TodoWrite" then "Updating todo list"
  else truncate input.stringified 60

/-- `createToolNode(entry, block)` for a `tool_use` block. -/
def createToolNode (e : AssistantMessageEntry) (bid toolName : String) (input : ToolInput) :
    ConversationNode :=
  if toolName == "Task" then
    { id := e.uuid ++ "-tool-" ++ bid, parentId := e.parentUuid, timestamp := e.timestamp,
      type := .agent,
      summary := truncate (jsOrStr input.description (jsOrStr input.prompt "")) 80,
      content := .ofBlock (.tool_use bid toolName input),
      toolName := some toolName, toolInput := some input, toolResult := e.toolUseResult,
      agentType := some (jsOrStr input.subagent_type "unknown"), children := [] }
  else if toolName == "Skill" then
    { id := e.uuid ++ "-tool-" ++ bid, parentId := e.parentUuid, timestamp := e.timestamp,
      type := .skill, summary := jsOrStr input.skill "unknown",
      content := .ofBlock (.tool_use bid toolName input),
      toolName := some toolName, toolInput := some input,
      skillName := some (jsOrStr input.skill "unknown"), children := [] }
  else if toolName == "SlashCommand" then
    { id := e.uuid ++ "-tool-" ++ bid, parentId := e.parentUuid, timestamp := e.timestamp,
      type := .command, summary := jsOrStr input.command "unknown",
      content := .ofBlock (.tool_use bid toolName input),
      toolName := some toolName, toolInput := some input,
      commandName := some (jsOrStr input.command "unknown"), children := [] }
  else
    { id := e.uuid ++ "-tool-" ++ bid, parentId := e.parentUuid, timestamp := e.timestamp,
      type := .tool_call, summary := toolName ++ ": " ++ getToolSummary toolName input,
      content := .ofBlock (.tool_use bid toolName input),
      toolName := some toolName, toolInput := some input, toolResult := e.toolUseResult,
      children := [] }

/-- `createAssistantNodes(entry)`: one node per recognized content segment
(the kind-specific suffix is the only per-segment discriminator for
thinking and text segments). -/
def createAssistantNodes (e : AssistantMessageEntry) : List ConversationNode :=
  e.content.filterMap fun block =>
    match block with
    | .thinking th _ =>
      some { id := e.uuid ++ "-thinking", parentId := e.parentUuid, timestamp := e.timestamp,
             type := .thinking, summary := truncate th 100, content := .ofBlock block,
             children := [] }
    | .text t =>
      some { id := e.uuid ++ "-text", parentId := e.parentUuid, timestamp := e.timestamp,
             type := .assistant, summary := truncate t 100, content := .ofBlock block,
             children := [] }
    | .tool_use bid toolName input => some (createToolNode e bid toolName input)
    | .tool_result_block _ => none

/-- `JSON.stringify` of a tool-result element (canonical field order, no
escaping; used only to render the regular-user-path content of array
payloads, and no claim depends on its exact output). -/
def stringifyToolResult (tr : ToolResultContent) : String :=
  "\x7b\"tool_use_id\":\"" ++ tr.tool_use_id ++ "\",\"type\":\"tool_result\",\"content\":\"" ++
    tr.content ++ "\",\"is_error\":" ++ (if tr.is_error then "true" else "false") ++ "\x7d"

/-- `JSON.stringify` of one user content element. -/
def stringifyUserBlock : UserBlock → String
  | .toolResult tr => stringifyToolResult tr
  | .other s => s

/-- `JSON.stringify(messageContent)` for a non-tool-result payload. -/
def stringifyUserContent : UserContent → String
  | .str s => s
  | .arr items => "[" ++ String.intercalate "," (items.map stringifyUserBlock) ++ "]"

/-- The regular-user-message tail of `createUserNode` (after the tool-result
check), taking the already-computed content string. -/
def createUserNodeRegular (e : UserMessageEntry) (content : String) :
    Option ConversationNode :=
  let systemInfo := detectSystemMessage content
  if systemInfo.skip then none
  else
    some { id := e.uuid, parentId := e.parentUuid, timestamp := e.timestamp,
           type := if systemInfo.isSystem then .system else .user,
           summary := if systemInfo.isSystem then systemInfo.summary else truncate content 100,
           content := .ofString content, children := [] }

/-- `createUserNode(entry)`: tool-result detection on the first array
element, else the regular user path (`JSON.stringify` for array payloads). -/
def createUserNode (e : UserMessageEntry) : Option ConversationNode :=
  match e.message with
  | .arr (firstItem :: _) =>
    match firstItem with
    | .toolResult tr =>
      let resultContent := tr.content
      let isError := tr.is_error
      let toolNodeId :=
        (match e.parentUuid with | some p => p | none => "null") ++ "-tool-" ++ tr.tool_use_id
      some { id := e.uuid, parentId := some toolNodeId, timestamp := e.timestamp,
             type := .tool_result, summary := getToolResultSummary resultContent isError,
             content := .ofString resultContent,
             toolResult := some { stdout := if isError then none else some resultContent,
                                  stderr := if isError then some resultContent else none },
             children := [] }
    | .other _ => createUserNodeRegular e (stringifyUserContent e.message)
  | .arr [] => createUserNodeRegular e (stringifyUserContent e.message)
  | .str s => createUserNodeRegular e s

/- ## Node registry and line processing -/

/-- JS `Map.prototype.set`: overwrite in place (keeping insertion order) or
append. -/
def mapSet (store : List ConversationNode) (n : ConversationNode) : List ConversationNode :=
  if store.any (fun m => m.id == n.id) then store.map (fun m => if m.id == n.id then n else m)
  else store ++ [n]

/-- Lookup in the registry by identifier. -/
def mapGet (store : List ConversationNode) (i : String) : Option ConversationNode :=
  store.find? (fun m => m.id == i)

/-- `processLine(line)`: classify one parsed line and upsert the produced
nodes; returns the updated registry and the source's return value
(`nodes[0] || null` for assistant records). -/
def processLine (store : List ConversationNode) (l : Line) :
    List ConversationNode × Option ConversationNode :=
  match l.parsed with
  | .fail => (store, none)
  | .ok (.other _ _) => (store, none)
  | .ok (.entry (.fileHistorySnapshot _)) => (store, none)
  | .ok (.entry (.user u)) =>
    match createUserNode u with
    | some n => (mapSet store n, some n)
    | none => (store, none)
  | .ok (.entry (.assistant a)) =>
    let ns := createAssistantNodes a
    (ns.foldl mapSet store, ns.head?)

/-- `isValidJsonLine(line)`: nonempty after trim, brace-delimited, and
structurally parseable. -/
def isValidJsonLine (l : Line) : Bool :=
  let trimmed := jsTrim l.raw
  !trimmed.isEmpty && jsStartsWith trimmed "\x7b" && jsEndsWith trimmed "\x7d" &&
    (match l.parsed with | .ok _ => true | .fail => false)

/-- JS truthiness of an optional string field (`undefined` and `''` are
falsy). -/
def jsTruthyOpt : Option String → Bool
  | some s => !(s == "")
  | none => false

/-- The `hash-<n>` fallback fingerprint. -/
def fallbackHash (l : Line) : String := "hash-" ++ toString (stringHash l.raw)

/-- `hashLine(line)`: uuid if truthy, else `snapshot-<messageId>` if truthy,
else the rolling string hash. -/
def hashLine (l : Line) : String :=
  match l.parsed with
  | .fail => fallbackHash l
  | .ok p =>
    let uuidF : Option String :=
      match p with
      | .entry (.user u) => some u.uuid
      | .entry (.assistant a) => some a.uuid
      | .entry (.fileHistorySnapshot _) => none
      | .other u _ => u
    let midF : Option String :=
      match p with
      | .entry (.fileHistorySnapshot mid) => some mid
      | .other _ m => m
      | _ => none
    if jsTruthyOpt uuidF then uuidF.getD ""
    else if jsTruthyOpt midF then "snapshot-" ++ midF.getD ""
    else fallbackHash l

/- ## Incremental line tracker -/

/-- The watcher's mutable state: registry, last-processed line count, and
fingerprint set (`Set` iteration order kept as insertion order). -/
structure WatcherState where
  nodes : List ConversationNode := []
  lastLineCount : Nat := 0
  processedLines : List String := []
deriving DecidableEq, Repr

/-- Fresh watcher state. -/
def initState : WatcherState := {}

/-- JS `Set.prototype.add`. -/
def setAdd (s : List String) (x : String) : List String :=
  if s.contains x then s else s ++ [x]

/-- The per-line body shared by both read loops: validate, fingerprint-dedup,
process; returns whether a node was produced. -/
def stepLine (st : WatcherState) (l : Line) : WatcherState × Bool :=
  if isValidJsonLine l then
    let h := hashLine l
    if st.processedLines.contains h then (st, false)
    else
      let st1 := { st with processedLines := setAdd st.processedLines h }
      let res := processLine st1.nodes l
      ({ st1 with nodes := res.1 }, res.2.isSome)
  else (st, false)

/-- `content.split('\n').filter(line => line.trim())`. -/
def nonEmptyLines (file : List Line) : List Line :=
  file.filter (fun l => !(jsTrim l.raw).isEmpty)

/-- Run the per-line body over a list of lines. -/
def runLines (st : WatcherState) (ls : List Line) : WatcherState :=
  ls.foldl (fun s l => (stepLine s l).1) st

/-- `readFile()`: the initial full read (always emits the tree afterwards). -/
def readFileFn (st : WatcherState) (file : List Line) : WatcherState :=
  { runLines st (nonEmptyLines file) with lastLineCount := (nonEmptyLines file).length }

/-- `readNewContent()`: the change-triggered read; processes only the lines
beyond `lastLineCount` and reports whether any node was produced (the
condition for emitting a snapshot). -/
def readNewContent (st : WatcherState) (file : List Line) : WatcherState × Bool :=
  let lines := nonEmptyLines file
  if lines.length ≤ st.lastLineCount then (st, false)
  else
    let newLines := lines.drop st.lastLineCount
    let res := newLines.foldl (fun (p : WatcherState × Bool) l =>
      let q := stepLine p.1 l
      (q.1, p.2 || q.2)) (st, false)
    ({ res.1 with lastLineCount := lines.length }, res.2)

/- ## Tree reconstructor -/

/-- The timestamp order used by every `sort(sortByTimestamp)` call. -/
def tsLe (a b : ConversationNode) : Prop := a.timestamp ≤ b.timestamp

instance : DecidableRel tsLe := fun a b => (inferInstance : Decidable (a.timestamp ≤ b.timestamp))

instance : IsTotal ConversationNode tsLe := ⟨fun a b => Nat.le_total a.timestamp b.timestamp⟩

instance : IsTrans ConversationNode tsLe := ⟨fun _ _ _ h1 h2 => Nat.le_trans h1 h2⟩

/-- Stable sort by timestamp (JS `Array.prototype.sort` is stable, so any
stable sort is extensionally the same function). -/
def sortTs (l : List ConversationNode) : List ConversationNode := l.insertionSort tsLe

/-- A reorganized child together with its own (tool-result) children.  The
reorganization pass nests at most three levels: root, child, grandchild. -/
abbrev ChildPair := ConversationNode × List ConversationNode

/-- A reorganized root with its children. -/
abbrev RootTree := ConversationNode × List ChildPair

/-- The reorganized display tree. -/
abbrev Forest := List RootTree

/-- Timestamp order on child pairs. -/
def tsLeP (a b : ChildPair) : Prop := a.1.timestamp ≤ b.1.timestamp

instance : DecidableRel tsLeP := fun a b => (inferInstance : Decidable (a.1.timestamp ≤ b.1.timestamp))

instance : IsTotal ChildPair tsLeP := ⟨fun a b => Nat.le_total a.1.timestamp b.1.timestamp⟩

instance : IsTrans ChildPair tsLeP := ⟨fun _ _ _ h1 h2 => Nat.le_trans h1 h2⟩

/-- Stable sort of child pairs by timestamp (`children.sort(sortByTimestamp)`). -/
def sortTsP (l : List ChildPair) : List ChildPair := l.insertionSort tsLeP

/-- The children-reset performed at the start of every rebuild pass. -/
def resetChildren (n : ConversationNode) : ConversationNode := { n with children := [] }

/-- Phase A child list of a parent: the nodes declaring it as parent, in
registry order (before the timestamp sort). -/
def childNodes (arr : List ConversationNode) (p : ConversationNode) : List ConversationNode :=
  arr.filter (fun m => m.parentId == some p.id)

/-- Phase A roots: nodes with no parent id, or whose parent id is absent
from the registry (orphans are promoted to roots); sorted by timestamp. -/
def buildTreeRoots (arr : List ConversationNode) : List ConversationNode :=
  sortTs (arr.filter fun n =>
    match n.parentId with
    | none => true
    | some p => !arr.any (fun m => m.id == p))

/-- Preorder flattening of the phase-A tree below one node
(`flattenTree`'s recursion); fuel bounds the depth, and `arr.length` fuel
is exact on every duplicate-free registry since root-reachable parent
chains cannot repeat a node. -/
def flattenSub (arr : List ConversationNode) : Nat → ConversationNode → List ConversationNode
  | 0, n => [n]
  | fuel + 1, n => n :: ((sortTs (childNodes arr n)).map (flattenSub arr fuel)).flatten

/-- `flattenTree(rootNodes)` over the phase-A forest. -/
def flattenTree (arr : List ConversationNode) (roots : List ConversationNode) :
    List ConversationNode :=
  (roots.map (flattenSub arr arr.length)).flatten

/-- Turn starters are `user` and `system` nodes. -/
def isTurnStarter (n : ConversationNode) : Bool :=
  n.type == NodeType.user || n.type == NodeType.system

/-- The tool-invocation family of node kinds. -/
def isToolFamily (n : ConversationNode) : Bool :=
  n.type == NodeType.tool_call || n.type == NodeType.agent || n.type == NodeType.skill ||
    n.type == NodeType.command

/-- `usedNodes.add` (membership is all the set is queried for). -/
def usedAdd (u : List String) (x : String) : List String := x :: u

/-- The thinking-node and secondary-response loops: attach each not-yet-used
node as a childless child pair, marking it used. -/
def addChildLeaves (u : List String) : List ConversationNode → List String × List ChildPair
  | [] => (u, [])
  | t :: ts =>
    if u.contains t.id then addChildLeaves u ts
    else
      let r := addChildLeaves (usedAdd u t.id) ts
      (r.1, (t, []) :: r.2)

/-- The tool-call loop: attach each not-yet-used invocation together with
the tool results whose declared parent is that invocation. -/
def addToolsWithResults (toolResults : List ConversationNode) (u : List String) :
    List ConversationNode → List String × List ChildPair
  | [] => (u, [])
  | t :: ts =>
    if u.contains t.id then addToolsWithResults toolResults u ts
    else
      let u1 := usedAdd u t.id
      let matching := toolResults.filter fun r => r.parentId == some t.id && !u1.contains r.id
      let u2 := matching.foldl (fun uu r => usedAdd uu r.id) u1
      let rest := addToolsWithResults toolResults u2 ts
      (rest.1, (t, matching) :: rest.2)

/-- The no-primary-response branch: every non-tool-result turn node becomes
a root carrying its matched tool results. -/
def addOrphanRoots (toolResults : List ConversationNode) (u : List String) :
    List ConversationNode → List String × Forest
  | [] => (u, [])
  | n :: ns =>
    if n.type == NodeType.tool_result || u.contains n.id then addOrphanRoots toolResults u ns
    else
      let u1 := usedAdd u n.id
      let matching := toolResults.filter fun r => r.parentId == some n.id && !u1.contains r.id
      let u2 := matching.foldl (fun uu r => usedAdd uu r.id) u1
      let rest := addOrphanRoots toolResults u2 ns
      (rest.1, (n, matching.map fun r => (r, [])) :: rest.2)

/-- The nodes of one turn's window: not yet consumed, strictly between the
turn starter and the next one (or unbounded for the last turn). -/
def turnWindow (sorted : List ConversationNode) (s : ConversationNode)
    (next : Option ConversationNode) (used0 : List String) : List ConversationNode :=
  sorted.filter fun n =>
    !(n.id == s.id) && !used0.contains n.id &&
    s.timestamp < n.timestamp &&
    (match next with
     | some t => n.timestamp < t.timestamp
     | none => true)

/-- One iteration of the per-turn loop of `reorganizeForDisplay`: marks the
turn starter used, collects the turn's window, and regroups it under the
turn's last assistant text response (or promotes the window's nodes to
roots when there is none); returns the grown used-set and this turn's
roots. -/
def turnStep (sorted : List ConversationNode) (s : ConversationNode)
    (next : Option ConversationNode) (used : List String) : List String × Forest :=
  let used0 := usedAdd used s.id
  let turnNodes := turnWindow sorted s next used0
  let aiTexts := turnNodes.filter fun n => n.type == NodeType.assistant
  match aiTexts.getLast? with
  | some ai =>
    let used1 := usedAdd used0 ai.id
    let thinkingNodes := turnNodes.filter fun n => n.type == NodeType.thinking
    let toolCalls := turnNodes.filter isToolFamily
    let toolResults := turnNodes.filter fun n => n.type == NodeType.tool_result
    let otherAi := aiTexts.filter fun n => !(n.id == ai.id)
    let r1 := addChildLeaves used1 thinkingNodes
    let r2 := addToolsWithResults toolResults r1.1 toolCalls
    let r3 := addChildLeaves r2.1 otherAi
    let aiChildren := sortTsP (r1.2 ++ r2.2 ++ r3.2)
    (r3.1, [(s, []), (ai, aiChildren)])
  | none =>
    let toolResults := turnNodes.filter fun n => n.type == NodeType.tool_result
    let r := addOrphanRoots toolResults used0 turnNodes
    (r.1, (s, []) :: r.2)

/-- The per-turn loop of `reorganizeForDisplay`: walk the turn starters in
timestamp order, emitting each turn's roots while threading the used-set. -/
def reorgTurns (sorted : List ConversationNode) :
    List ConversationNode → List String → Forest
  | [], _ => []
  | s :: rest, used =>
    let r := turnStep sorted s rest.head? used
    r.2 ++ reorgTurns sorted rest r.1

/-- `reorganizeForDisplay(rootNodes)`: flatten, reset, sort, and regroup by
turns; with no nodes, or no turn starters, the (children-reset) phase-A
roots are returned as they stand. -/
def reorganizeForDisplay (arr : List ConversationNode) (roots : List ConversationNode) :
    Forest :=
  let allNodes := flattenTree arr roots
  if allNodes.isEmpty then roots.map (fun r => (r, []))
  else
    let sorted := sortTs allNodes
    let turnStarters := sorted.filter isTurnStarter
    if turnStarters.isEmpty then roots.map (fun r => (r, []))
    else reorgTurns sorted turnStarters []

/-- `buildTree()`: reset every registered node's children, link by declared
parents, and run the display reorganization. -/
def buildTree (store : List ConversationNode) : Forest :=
  let arr := store.map resetChildren
  reorganizeForDisplay arr (buildTreeRoots arr)

/-- `getNodes()`: the snapshot handed to subscribers. -/
def getNodes (st : WatcherState) : Forest := buildTree st.nodes

/-- Phase A's in-place child assignment for one parent, as an id list. -/
def phaseAChildrenIds (arr : List ConversationNode) (n : ConversationNode) : List String :=
  (sortTs (childNodes arr n)).map fun c => c.id

/-- The children array a node holds after the reorganization pass, read off
the produced forest (nodes the pass dropped keep their reset, empty
array). -/
def forestChildrenIds (f : Forest) (i : String) : List String :=
  match f.find? (fun rt => rt.1.id == i) with
  | some rt => rt.2.map fun p => p.1.id
  | none =>
    match (f.map (fun rt => rt.2)).flatten.find? (fun p => p.1.id == i) with
    | some p => p.2.map fun c => c.id
    | none => []

/-- The registry as it stands after a full `buildTree()` pass: identical
node data, children arrays rewritten in place by the pass (phase-A arrays
for nodes the flatten never reached, reorganized arrays for the rest). -/
def snapshotState (store : List ConversationNode) : List ConversationNode :=
  let arr := store.map resetChildren
  let roots := buildTreeRoots arr
  let allNodes := flattenTree arr roots
  if allNodes.isEmpty then
    arr.map fun n => { n with children := phaseAChildrenIds arr n }
  else
    let sorted := sortTs allNodes
    let turnStarters := sorted.filter isTurnStarter
    if turnStarters.isEmpty then
      arr.map fun n =>
        if allNodes.any (fun m => m.id == n.id) then { n with children := [] }
        else { n with children := phaseAChildrenIds arr n }
    else
      let f := reorgTurns sorted turnStarters []
      arr.map fun n =>
        if allNodes.any (fun m => m.id == n.id) then
          { n with children := forestChildrenIds f n.id }
        else { n with children := phaseAChildrenIds arr n }

/-- Identifier list of one reorganized child pair. -/
def pairIds (p : ChildPair) : List String := p.1.id :: p.2.map fun c => c.id

/-- Identifier list of one reorganized root tree (preorder). -/
def rootTreeIds (rt : RootTree) : List String := rt.1.id :: (rt.2.map pairIds).flatten

/-- All identifiers occurring in the reorganized tree, with multiplicity. -/
def forestIds (f : Forest) : List String := (f.map rootTreeIds).flatten

/- ## The C2 reference process (claim's words) -/

/-- The reference read of claim C2, stated from the spec's words: run the
fingerprint-based dedup over every non-empty trimmed line of the whole
read, with no line-index skipping. -/
def specDedupRead (st : WatcherState) (file : List Line) : WatcherState :=
  { runLines st (nonEmptyLines file) with lastLineCount := (nonEmptyLines file).length }

/-- The tracker's actual behavior on a sequence of reads, each read
re-reading the full file: the first read is the initial `readFile`, later
ones are `readNewContent`. -/
def realRun (reads : List (List Line)) : WatcherState :=
  match reads with
  | [] => initState
  | r0 :: rs => rs.foldl (fun st r => (readNewContent st r).1) (readFileFn initState r0)

/-- The reference behavior on the same sequence of reads. -/
def specRun (reads : List (List Line)) : WatcherState :=
  match reads with
  | [] => initState
  | r0 :: rs => rs.foldl specDedupRead (specDedupRead initState r0)

/-- The append-only read sequences: read `k` is the concatenation of the
first `k + 1` chunks. -/
def accumFrom (acc : List Line) : List (List Line) → List (List Line)
  | [] => []
  | c :: cs => (acc ++ c) :: accumFrom (acc ++ c) cs

/-- The reads seen while a file grows by the given chunks. -/
def accumReads (chunks : List (List Line)) : List (List Line) := accumFrom [] chunks

/- ## Concrete instances used by scenario claims, witnesses and
counterexamples -/

/-- C3 scenario: the opening user record. -/
def c3UserEntry : UserMessageEntry :=
  { parentUuid := none, uuid := "u1", timestamp := 1, message := .str "Fix the bug" }

/-- C3 scenario: the assistant record with thinking, Bash tool use `abc`,
and a text segment. -/
def c3AsstEntry : AssistantMessageEntry :=
  { parentUuid := some "u1", uuid := "u2", timestamp := 2,
    content := [.thinking "hmm" none, .tool_use "abc" "Bash" { command := some "ls" },
                .text "Done"] }

/-- C3 scenario: the user record carrying the tool result for `abc`. -/
def c3ResultEntry : UserMessageEntry :=
  { parentUuid := some "u2", uuid := "u3", timestamp := 3,
    message := .arr [.toolResult { tool_use_id := "abc", content := "ok", is_error := false }] }

/-- C3 scenario lines (raw text abbreviated; only its trim/brace shape and
the parse result are consulted). -/
def c3Line1 : Line := { raw := "\x7b1\x7d", parsed := .ok (.entry (.user c3UserEntry)) }

/-- Second C3 line. -/
def c3Line2 : Line := { raw := "\x7b2\x7d", parsed := .ok (.entry (.assistant c3AsstEntry)) }

/-- Third C3 line. -/
def c3Line3 : Line := { raw := "\x7b3\x7d", parsed := .ok (.entry (.user c3ResultEntry)) }

/-- The reorganized tree of the C3 log. -/
def c3Forest : Forest :=
  buildTree (readFileFn initState [c3Line1, c3Line2, c3Line3]).nodes

/-- C1 counterexample registry: a user node and an orphaned tool result
(its declared parent invocation was never classified). -/
def c1CexStore : List ConversationNode :=
  [ { id := "u1", parentId := none, timestamp := 1, type := .user,
      summary := "hi", content := .ofString "hi" },
    { id := "r1", parentId := some "missing-tool-x", timestamp := 2, type := .tool_result,
      summary := "ok", content := .ofString "ok" } ]

/-- C1 witness registry: a small duplicate-free registry exercising the
turn regrouping. -/
def c1WitStore : List ConversationNode :=
  [ { id := "w1", parentId := none, timestamp := 1, type := .user,
      summary := "q", content := .ofString "q" },
    { id := "w2-thinking", parentId := some "w1", timestamp := 2, type := .thinking,
      summary := "t", content := .ofBlock (.thinking "t" none) },
    { id := "w2-text", parentId := some "w1", timestamp := 3, type := .assistant,
      summary := "a", content := .ofBlock (.text "a") } ]

/-- C2: the partial trailing line of the first read. -/
def c2Partial : Line := { raw := "\x7b\"type\":\"use", parsed := .fail }

/-- C2: the same line once the writer completed it in place (a valid user
record occupying the same line index). -/
def c2Complete : Line :=
  { raw := "\x7bc\x7d",
    parsed := .ok (.entry (.user { parentUuid := none, uuid := "cu1", timestamp := 1,
                                   message := .str "hello" })) }

/-- C2 witness: a valid first-chunk line. -/
def c2Valid1 : Line :=
  { raw := "\x7bv1\x7d",
    parsed := .ok (.entry (.user { parentUuid := none, uuid := "v1", timestamp := 1,
                                   message := .str "one" })) }

/-- C2 witness: a valid second-chunk line. -/
def c2Valid2 : Line :=
  { raw := "\x7bv2\x7d",
    parsed := .ok (.entry (.user { parentUuid := some "v1", uuid := "v2", timestamp := 2,
                                   message := .str "two" })) }

/-- C4 counterexample: one assistant record with two text segments. -/
def c4CexEntry : AssistantMessageEntry :=
  { parentUuid := some "p", uuid := "u", timestamp := 5,
    content := [.text "first", .text "second"] }

/-- C4 witness: one thinking, one text, and two tool uses with distinct
block ids. -/
def c4WitEntry : AssistantMessageEntry :=
  { parentUuid := some "p", uuid := "w", timestamp := 6,
    content := [.thinking "th" none, .tool_use "t1" "Bash" { command := some "ls" },
                .tool_use "t2" "Read" { file_path := some "f" }, .text "done"] }

/-- C7 counterexample content: carries the caveat marker but also the
command wrappers matched by the filter's first rule. -/
def c7CexContent : String :=
  "<command-name>x</command-name><command-message>y</command-message>" ++
    "Caveat: The messages below were generated by the user"

/-- C7 counterexample user entry. -/
def c7CexEntry : UserMessageEntry :=
  { parentUuid := none, uuid := "u7", timestamp := 1, message := .str c7CexContent }

/-- The local-command-stdout placeholder of the C7 scenario. -/
def c7StdoutContent : String := "<local-command-stdout></local-command-stdout>"

/-- C8: a 101-character content string. -/
def c8LongContent : String := String.mk (List.replicate 101 'a')

/-- C8 counterexample user entry (ordinary user message longer than 100
characters). -/
def c8CexEntry : UserMessageEntry :=
  { parentUuid := none, uuid := "u8", timestamp := 1, message := .str c8LongContent }

/-- C8 witness user entry (short ordinary user message). -/
def c8WitEntry : UserMessageEntry :=
  { parentUuid := none, uuid := "u8w", timestamp := 1, message := .str "hi" }

/-- C9 witness: the malformed trailing line of the scenario. -/
def c9BadLine : Line := { raw := "\x7b\"type\":\"use", parsed := .fail }

/-- C9 witness: the otherwise valid file it is appended to. -/
def c9GoodFile : List Line := [c3Line1]

/-- C10 witness tool result element. -/
def c10Tr : ToolResultContent := { tool_use_id := "abc", content := "out", is_error := false }

/-- C10 witness user entry whose array carries a second, dropped
tool-result element. -/
def c10Entry : UserMessageEntry :=
  { parentUuid := some "pa", uuid := "u10", timestamp := 4,
    message := .arr [.toolResult c10Tr,
                     .toolResult { tool_use_id := "def", content := "dropped", is_error := true }] }

/-- C10 witness line. -/
def c10Line : Line := { raw := "\x7bt\x7d", parsed := .ok (.entry (.user c10Entry)) }

/-- Does a segment classify as a thinking block? (used to count same-kind
segments). -/
def isThinkingB : ContentBlock → Bool
  | .thinking _ _ => true
  | _ => false

/-- Does a segment classify as a text block? -/
def isTextB : ContentBlock → Bool
  | .text _ => true
  | _ => false

/-- The tool_use block id carried by a segment, if any. -/
def toolBlockId : ContentBlock → Option String
  | .tool_use bid _ _ => some bid
  | _ => none

/-- The node identifier a segment expands to (none for embedded tool-result
segments, which expand to no node). -/
def blockKey (uuid : String) : ContentBlock → Option String
  | .thinking _ _ => some (uuid ++ "-thinking")
  | .text _ => some (uuid ++ "-text")
  | .tool_use bid _ _ => some (uuid ++ "-tool-" ++ bid)
  | .tool_result_block _ => none

/-- The node produced for the C8 witness entry. -/
def c8WitNode : ConversationNode :=
  { id := "u8w", parentId := none, timestamp := 1, type := .user,
    summary := "hi", content := .ofString "hi", children := [] }

/-- The unique registry entry a node's declared parent resolves to (ghost
definition for reasoning about phase-A links). -/
def parentOf (arr : List ConversationNode) (n : ConversationNode) : Option ConversationNode :=
  match n.parentId with
  | none => none
  | some p => arr.find? (fun m => m.id == p)

/-- k-fold parent chain (ghost definition). -/
def anc (arr : List ConversationNode) : Nat → ConversationNode → Option ConversationNode
  | 0, n => some n
  | k + 1, n => (anc arr k n).bind (parentOf arr)

/-- A node whose parent chain never returns to it (ghost definition; holds
for every root-reachable node of a duplicate-free registry). -/
def NoCycle (arr : List ConversationNode) (n : ConversationNode) : Prop :=
  ∀ k, 0 < k → anc arr k n ≠ some n

/-- All identifiers in a reorganized child-pair list, with multiplicity. -/
def childIds (ps : List ChildPair) : List String := (ps.map pairIds).flatten

/- ## Basic facts about the line tracker -/

/-- The state component of `readNewContent`'s flagged fold is the plain
line fold. -/
theorem readFold_fst (B : List Line) : ∀ (st : WatcherState) (b : Bool),
    (B.foldl (fun (p : WatcherState × Bool) l =>
      let q := stepLine p.1 l
      (q.1, p.2 || q.2)) (st, b)).1 = runLines st B := by
  induction B with
  | nil => intro st b; rfl
  | cons l B ih =>
    intro st b
    simp only [List.foldl_cons]
    exact ih _ _

/-- `stepLine` neither reads nor writes `lastLineCount`. -/
theorem stepLine_set_llc (st : WatcherState) (k : Nat) (l : Line) :
    (stepLine { st with lastLineCount := k } l).1 = { (stepLine st l).1 with lastLineCount := k } := by
  cases hv : isValidJsonLine l with
  | false => simp [stepLine, hv]
  | true =>
    by_cases hc : hashLine l ∈ st.processedLines
    · simp [stepLine, hv, hc]
    · simp [stepLine, hv, hc]

/-- The line fold neither reads nor writes `lastLineCount`. -/
theorem runLines_set_llc (B : List Line) : ∀ (st : WatcherState) (k : Nat),
    runLines { st with lastLineCount := k } B = { runLines st B with lastLineCount := k } := by
  induction B with
  | nil => intro st k; rfl
  | cons l B ih =>
    intro st k
    simp only [runLines, List.foldl_cons, stepLine_set_llc]
    exact ih _ _

/-- The line fold splits over concatenation. -/
theorem runLines_append (st : WatcherState) (A B : List Line) :
    runLines st (A ++ B) = runLines (runLines st A) B := by
  simp [runLines, List.foldl_append]

/-- A poll whose file has no more non-empty lines than already counted
returns early, emitting nothing. -/
theorem readNewContent_same_count (st : WatcherState) (file : List Line)
    (hc : (nonEmptyLines file).length ≤ st.lastLineCount) :
    readNewContent st file = (st, false) := by
  simp [readNewContent, hc]

/- ## C3: the worked scenario -/

/-- C3: for the log of one user record, one assistant record (thinking,
Bash tool use `abc`, text) and one user record carrying the tool result for
`abc`, the reorganized tree has exactly two roots — the user node then the
assistant text node — the assistant node's children are the thinking node
and the tool_call node, and the tool_call node's children are exactly one
tool_result node. -/
theorem claim_C3 :
    (c3Forest.map fun rt => (rt.1.id, rt.1.type)) =
      [("u1", NodeType.user), ("u2-text", NodeType.assistant)] ∧
    (c3Forest.map fun rt => rt.2.map fun p => (p.1.id, p.1.type)) =
      [[], [("u2-thinking", NodeType.thinking), ("u2-tool-abc", NodeType.tool_call)]] ∧
    (c3Forest.map fun rt => rt.2.map fun p => p.2.map fun c => (c.id, c.type)) =
      [[], [[], [("u3", NodeType.tool_result)]]] := by
  decide

/- ## C9: malformed trailing line -/

/-- Appending one invalid line to a file whose non-empty lines were all
counted leaves the registry untouched and produces no snapshot. -/
theorem readNewContent_append_invalid (st : WatcherState) (file : List Line) (l : Line)
    (hst : st.lastLineCount = (nonEmptyLines file).length)
    (h : isValidJsonLine l = false) :
    (readNewContent st (file ++ [l])).1.nodes = st.nodes ∧
    (readNewContent st (file ++ [l])).2 = false := by
  have hA : nonEmptyLines (file ++ [l]) = nonEmptyLines file ++ nonEmptyLines [l] := by
    simp [nonEmptyLines]
  by_cases he : (jsTrim l.raw).isEmpty = true
  · have h1 : nonEmptyLines [l] = [] := by simp [nonEmptyLines, he]
    have hc : (nonEmptyLines (file ++ [l])).length ≤ st.lastLineCount := by
      rw [hA, h1, List.append_nil, hst]
    rw [readNewContent_same_count st _ hc]
    exact ⟨rfl, rfl⟩
  · have h1 : nonEmptyLines [l] = [l] := by
      simp [nonEmptyLines]
      exact Bool.of_not_eq_true he
    have hlen : ¬ ((nonEmptyLines (file ++ [l])).length ≤ st.lastLineCount) := by
      rw [hA, h1, List.length_append, hst]
      simp
    have hdrop : (nonEmptyLines (file ++ [l])).drop st.lastLineCount = [l] := by
      rw [hA, h1, hst, List.drop_left]
    have hstep : stepLine st l = (st, false) := by
      simp [stepLine, h]
    simp [readNewContent, if_neg hlen, hdrop, hstep]

/-- C9: appending a malformed trailing line (failing the brace/parse
validation) to an otherwise valid file leaves the tree unchanged and emits
no snapshot for that cycle: the registry is untouched, the emit flag is
false, and the rebuilt tree is the previous one. -/
theorem claim_C9 (file : List Line) (l : Line) (h : isValidJsonLine l = false) :
    (readNewContent (readFileFn initState file) (file ++ [l])).1.nodes =
      (readFileFn initState file).nodes ∧
    (readNewContent (readFileFn initState file) (file ++ [l])).2 = false ∧
    getNodes (readNewContent (readFileFn initState file) (file ++ [l])).1 =
      getNodes (readFileFn initState file) := by
  have hst : (readFileFn initState file).lastLineCount = (nonEmptyLines file).length := by
    simp [readFileFn]
  have h2 := readNewContent_append_invalid (readFileFn initState file) file l hst h
  refine ⟨h2.1, h2.2, ?_⟩
  simp [getNodes, h2.1]

/-- C9 witness: the scenario's malformed line `\x7b"type":"use` appended to a
valid one-record file. -/
theorem claim_C9_witness :
    isValidJsonLine c9BadLine = false ∧
    (readNewContent (readFileFn initState c9GoodFile) (c9GoodFile ++ [c9BadLine])).1.nodes =
      (readFileFn initState c9GoodFile).nodes ∧
    (readNewContent (readFileFn initState c9GoodFile) (c9GoodFile ++ [c9BadLine])).2 = false ∧
    getNodes (readNewContent (readFileFn initState c9GoodFile) (c9GoodFile ++ [c9BadLine])).1 =
      getNodes (readFileFn initState c9GoodFile) := by
  refine ⟨by decide, ?_⟩
  exact claim_C9 c9GoodFile c9BadLine (by decide)

/- ## C10: user records yield zero or one node, from the first element -/

/-- C10: a user record whose content array starts with a tool_result is
classified from that first element alone (any further elements, including
further tool_result elements, are dropped), and processing any user line
changes the registry by at most one upsert — zero nodes or exactly one. -/
theorem claim_C10 :
    (∀ (e : UserMessageEntry) (tr : ToolResultContent) (rest rest' : List UserBlock),
      createUserNode { e with message := .arr (.toolResult tr :: rest) } =
      createUserNode { e with message := .arr (.toolResult tr :: rest') }) ∧
    (∀ (st : List ConversationNode) (l : Line) (u : UserMessageEntry),
      l.parsed = .ok (.entry (.user u)) →
      (processLine st l).1 = st ∨
        ∃ n, createUserNode u = some n ∧ (processLine st l).1 = mapSet st n) := by
  constructor
  · intro e tr rest rest'
    rfl
  · intro st l u hp
    simp only [processLine, hp]
    cases hn : createUserNode u with
    | none => exact Or.inl rfl
    | some n => exact Or.inr ⟨n, rfl, rfl⟩

/-- C10 witness: the two-element tool-result array record. -/
theorem claim_C10_witness :
    (createUserNode { parentUuid := some "pa", uuid := "u10", timestamp := 4,
                      message := .arr [.toolResult c10Tr] } =
      createUserNode c10Entry) ∧
    ((processLine [] c10Line).1 = [] ∨
      ∃ n, createUserNode c10Entry = some n ∧ (processLine [] c10Line).1 = mapSet [] n) := by
  refine ⟨?_, claim_C10.2 [] c10Line c10Entry rfl⟩
  exact claim_C10.1
    { parentUuid := some "pa", uuid := "u10", timestamp := 4, message := .arr [] } c10Tr []
    [.toolResult { tool_use_id := "def", content := "dropped", is_error := true }]

/- ## C6: monotonic ingestion -/

/-- C6: feeding any prefix of a log's lines as a complete read and then the
full file produces exactly the same final state — and hence the same final
tree — as feeding the whole log in one read. -/
theorem claim_C6 (P S : List Line) :
    (readNewContent (readFileFn initState P) (P ++ S)).1 = readFileFn initState (P ++ S) ∧
    getNodes (readNewContent (readFileFn initState P) (P ++ S)).1 =
      getNodes (readFileFn initState (P ++ S)) := by
  have hA : nonEmptyLines (P ++ S) = nonEmptyLines P ++ nonEmptyLines S := by
    simp [nonEmptyLines]
  have main : (readNewContent (readFileFn initState P) (P ++ S)).1 =
      readFileFn initState (P ++ S) := by
    have hst : (readFileFn initState P).lastLineCount = (nonEmptyLines P).length := by
      simp [readFileFn]
    by_cases hB : nonEmptyLines S = []
    · have hc : (nonEmptyLines (P ++ S)).length ≤ (readFileFn initState P).lastLineCount := by
        rw [hA, hB, List.append_nil, hst]
      rw [readNewContent_same_count _ _ hc]
      simp [readFileFn, hA, hB]
    · have hBpos : 0 < (nonEmptyLines S).length := List.length_pos.mpr hB
      have hlen : ¬ ((nonEmptyLines (P ++ S)).length ≤ (readFileFn initState P).lastLineCount) := by
        rw [hA, List.length_append, hst]
        omega
      have hdrop : (nonEmptyLines (P ++ S)).drop (readFileFn initState P).lastLineCount =
          nonEmptyLines S := by
        rw [hA, hst, List.drop_left]
      simp only [readNewContent, if_neg hlen, hdrop, readFold_fst]
      show ({ runLines (readFileFn initState P) (nonEmptyLines S) with
              lastLineCount := (nonEmptyLines (P ++ S)).length } : WatcherState) = _
      rw [show readFileFn initState P =
            { runLines initState (nonEmptyLines P) with
              lastLineCount := (nonEmptyLines P).length } from rfl,
          runLines_set_llc, ← runLines_append, ← hA]
      rfl
  exact ⟨main, by rw [main]⟩

/- ## C7: boilerplate suppression -/

/-- C7 counterexample: a plain-text content containing the caveat marker
together with the command wrappers hits the filter's first rule, so the
record produces one (system) node rather than zero. -/
theorem claim_C7_cex :
    jsIncludes c7CexContent caveatMarker = true ∧
    createUserNode c7CexEntry ≠ none ∧
    (processLine [] { raw := "\x7b7\x7d", parsed := .ok (.entry (.user c7CexEntry)) }).1.length
      = 1 := by
  refine ⟨by decide, by decide, by decide⟩

/-- C7 (amended): a user record whose plain-text content contains the caveat
marker — and none of the earlier-matched markers (command-message wrapper,
local-command-stdout placeholder, skill-JSON head) — produces zero nodes;
and a user record whose plain-text content contains the local-command-stdout
placeholder (as its scenario instance does) while the first rule does not
match produces zero nodes. -/
theorem claim_C7 :
    (∀ (content : String) (pu : Option String) (uu : String) (ts : Nat),
      jsIncludes content caveatMarker = true →
      jsIncludes content "<command-message>" = false →
      jsIncludes content "<local-command-stdout>" = false →
      jsStartsWith content skillJsonHead0 = false →
      createUserNode { parentUuid := pu, uuid := uu, timestamp := ts,
                       message := .str content } = none) ∧
    (∀ (content : String) (pu : Option String) (uu : String) (ts : Nat),
      jsIncludes content "<local-command-stdout>" = true →
      (jsIncludes content "<command-name>" && jsIncludes content "<command-message>") = false →
      createUserNode { parentUuid := pu, uuid := uu, timestamp := ts,
                       message := .str content } = none) := by
  constructor
  · intro content pu uu ts h1 h2 h3 h4
    simp [createUserNode, createUserNodeRegular, detectSystemMessage, h1, h2, h3, h4]
  · intro content pu uu ts h1 h2
    simp [createUserNode, createUserNodeRegular, detectSystemMessage, h1, h2]

/-- C7 witness: the bare caveat marker and the scenario's placeholder both
produce zero nodes. -/
theorem claim_C7_witness :
    createUserNode { parentUuid := none, uuid := "uc", timestamp := 1,
                     message := .str caveatMarker } = none ∧
    createUserNode { parentUuid := none, uuid := "ud", timestamp := 2,
                     message := .str c7StdoutContent } = none :=
  ⟨claim_C7.1 caveatMarker none "uc" 1 (by decide) (by decide) (by decide) (by decide),
   claim_C7.2 c7StdoutContent none "ud" 2 (by decide) (by decide)⟩

/- ## C8: ordinary user summaries -/

/-- The regular user path: an ordinary (non-system) node's summary is the
truncation of its content. -/
theorem createUserNodeRegular_user (e : UserMessageEntry) (c : String) (n : ConversationNode)
    (h : createUserNodeRegular e c = some n) (ht : n.type = NodeType.user) :
    n.content = NodeContent.ofString c ∧ n.summary = truncate c 100 := by
  unfold createUserNodeRegular at h
  by_cases hskip : (detectSystemMessage c).skip = true
  · rw [if_pos hskip] at h
    exact absurd h (by simp)
  · rw [if_neg hskip] at h
    have h' := Option.some.inj h
    by_cases hsys : (detectSystemMessage c).isSystem = true
    · rw [← h'] at ht
      simp [hsys] at ht
    · rw [← h']
      simp [hsys]

/-- C8 (amended): every user record classified as an ordinary `user` node
gets `truncate(content, 100)` as its summary: the whole content when it has
at most 100 characters, and the first 97 characters followed by `"..."`
when longer. -/
theorem claim_C8 (e : UserMessageEntry) (n : ConversationNode)
    (h : createUserNode e = some n) (ht : n.type = NodeType.user) :
    ∃ c, n.content = NodeContent.ofString c ∧ n.summary = truncate c 100 ∧
      (c.length ≤ 100 → n.summary = c) ∧
      (100 < c.length → n.summary = jsTake c 97 ++ "...") := by
  have truncs : ∀ c : String, (c.length ≤ 100 → truncate c 100 = c) ∧
      (100 < c.length → truncate c 100 = jsTake c 97 ++ "...") := by
    intro c
    constructor
    · intro hc
      simp [truncate, hc]
    · intro hc
      have : ¬ (c.length ≤ 100) := by omega
      simp [truncate, this]
  have main : ∃ c, n.content = NodeContent.ofString c ∧ n.summary = truncate c 100 := by
    obtain ⟨pu, uu, ts, msg⟩ := e
    cases msg with
    | str s =>
      unfold createUserNode at h
      exact ⟨s, createUserNodeRegular_user _ s n h ht⟩
    | arr items =>
      cases items with
      | nil =>
        unfold createUserNode at h
        exact ⟨_, createUserNodeRegular_user _ _ n h ht⟩
      | cons firstItem rest =>
        cases firstItem with
        | toolResult tr =>
          unfold createUserNode at h
          have h' := Option.some.inj h
          rw [← h'] at ht
          simp at ht
        | other s =>
          unfold createUserNode at h
          exact ⟨_, createUserNodeRegular_user _ _ n h ht⟩
  obtain ⟨c, hc1, hc2⟩ := main
  exact ⟨c, hc1, hc2, fun hl => by rw [hc2, (truncs c).1 hl],
    fun hl => by rw [hc2, (truncs c).2 hl]⟩

/-- C8 counterexample: a 101-character ordinary user content gets the
97-character truncation plus ellipsis, not its 100-character prefix. -/
theorem claim_C8_cex :
    ((createUserNode c8CexEntry).map fun n => n.type) = some NodeType.user ∧
    ((createUserNode c8CexEntry).map fun n => n.summary) ≠ some (jsTake c8LongContent 100) ∧
    ((createUserNode c8CexEntry).map fun n => n.summary) =
      some (jsTake c8LongContent 97 ++ "...") := by
  refine ⟨by decide, by decide, by decide⟩

/-- C8 witness: the short ordinary message keeps its whole content as
summary. -/
theorem claim_C8_witness :
    createUserNode c8WitEntry = some c8WitNode ∧ c8WitNode.type = NodeType.user ∧
    ∃ c, c8WitNode.content = NodeContent.ofString c ∧ c8WitNode.summary = truncate c 100 ∧
      (c.length ≤ 100 → c8WitNode.summary = c) ∧
      (100 < c.length → c8WitNode.summary = jsTake c 97 ++ "...") :=
  ⟨by decide, by decide, claim_C8 c8WitEntry c8WitNode (by decide) (by decide)⟩

/- ## C4: per-record identifier derivation -/

/-- Every `createToolNode` branch assigns the id `uuid ++ "-tool-" ++ blockId`. -/
theorem createToolNode_id (e : AssistantMessageEntry) (bid nm : String) (input : ToolInput) :
    (createToolNode e bid nm input).id = e.uuid ++ "-tool-" ++ bid := by
  unfold createToolNode
  split_ifs <;> rfl

/-- The ids produced by `createAssistantNodes` are the per-segment keys. -/
theorem createAssistantNodes_ids (e : AssistantMessageEntry) :
    (createAssistantNodes e).map (fun n => n.id) = e.content.filterMap (blockKey e.uuid) := by
  unfold createAssistantNodes
  rw [List.map_filterMap]
  apply List.filterMap_congr
  intro b _
  cases b with
  | thinking th sig => rfl
  | text t => rfl
  | tool_use bid nm input => simp [createToolNode_id, blockKey]
  | tool_result_block tr => rfl

/-- The thinking key differs from the text key. -/
theorem key_tn_ne_tx (u : String) : u ++ "-thinking" ≠ u ++ "-text" := by
  intro h
  have h2 := congrArg String.data h
  rw [String.data_append, String.data_append] at h2
  have h3 := List.append_cancel_left h2
  exact absurd h3 (by decide)

/-- The thinking key differs from every tool key. -/
theorem key_tn_ne_tool (u b : String) : u ++ "-thinking" ≠ u ++ "-tool-" ++ b := by
  intro h
  have h2 := congrArg String.data h
  rw [String.data_append, String.data_append, String.data_append, List.append_assoc] at h2
  have h3 := List.append_cancel_left h2
  rw [show ("-thinking".data) = ['-', 't', 'h', 'i', 'n', 'k', 'i', 'n', 'g'] from by decide,
      show ("-tool-".data) = ['-', 't', 'o', 'o', 'l', '-'] from by decide] at h3
  simp at h3

/-- The text key differs from every tool key. -/
theorem key_tx_ne_tool (u b : String) : u ++ "-text" ≠ u ++ "-tool-" ++ b := by
  intro h
  have h2 := congrArg String.data h
  rw [String.data_append, String.data_append, String.data_append, List.append_assoc] at h2
  have h3 := List.append_cancel_left h2
  rw [show ("-text".data) = ['-', 't', 'e', 'x', 't'] from by decide,
      show ("-tool-".data) = ['-', 't', 'o', 'o', 'l', '-'] from by decide] at h3
  simp at h3

/-- Tool keys are injective in the block id. -/
theorem key_tool_inj (u b b' : String) (h : u ++ "-tool-" ++ b = u ++ "-tool-" ++ b') :
    b = b' := by
  have h2 := congrArg String.data h
  simp only [String.data_append] at h2
  rw [List.append_assoc, List.append_assoc] at h2
  have h3 := List.append_cancel_left h2
  have h4 := List.append_cancel_left h3
  cases b with
  | mk l =>
    cases b' with
    | mk l' => exact congrArg String.mk h4

/-- Segment keys are pairwise distinct when a record carries at most one
thinking segment, at most one text segment, and pairwise distinct tool_use
block ids. -/
theorem blockKeys_nodup (u : String) : ∀ (bs : List ContentBlock),
    bs.countP isThinkingB ≤ 1 → bs.countP isTextB ≤ 1 →
    (bs.filterMap toolBlockId).Nodup → (bs.filterMap (blockKey u)).Nodup := by
  intro bs
  induction bs with
  | nil =>
    intro _ _ _
    simp
  | cons b bs ih =>
    intro h1 h2 h3
    rw [List.countP_cons] at h1 h2
    cases b with
    | thinking th sig =>
      simp only [isThinkingB, isTextB, if_true, if_false] at h1 h2
      have hz : bs.countP isThinkingB = 0 := by omega
      rw [show List.filterMap (blockKey u) (ContentBlock.thinking th sig :: bs) =
            (u ++ "-thinking") :: bs.filterMap (blockKey u) from by simp [blockKey]]
      refine List.nodup_cons.mpr ⟨?_, ih (by omega) (by omega)
        (by simpa [toolBlockId] using h3)⟩
      intro hmem
      obtain ⟨b2, hb2, hk⟩ := List.mem_filterMap.mp hmem
      cases b2 with
      | thinking th2 sig2 =>
        have hcz := List.countP_eq_zero.mp hz _ hb2
        simp [isThinkingB] at hcz
      | text t2 =>
        exact key_tn_ne_tx u (Option.some.inj hk).symm
      | tool_use bid2 nm2 inp2 =>
        exact key_tn_ne_tool u bid2 (Option.some.inj hk).symm
      | tool_result_block tr2 =>
        exact Option.noConfusion hk
    | text t =>
      simp only [isThinkingB, isTextB, if_true, if_false] at h1 h2
      have hz : bs.countP isTextB = 0 := by omega
      rw [show List.filterMap (blockKey u) (ContentBlock.text t :: bs) =
            (u ++ "-text") :: bs.filterMap (blockKey u) from by simp [blockKey]]
      refine List.nodup_cons.mpr ⟨?_, ih (by omega) (by omega)
        (by simpa [toolBlockId] using h3)⟩
      intro hmem
      obtain ⟨b2, hb2, hk⟩ := List.mem_filterMap.mp hmem
      cases b2 with
      | thinking th2 sig2 =>
        exact key_tn_ne_tx u (Option.some.inj hk)
      | text t2 =>
        have hcz := List.countP_eq_zero.mp hz _ hb2
        simp [isTextB] at hcz
      | tool_use bid2 nm2 inp2 =>
        exact key_tx_ne_tool u bid2 (Option.some.inj hk).symm
      | tool_result_block tr2 =>
        exact Option.noConfusion hk
    | tool_use bid nm inp =>
      simp only [isThinkingB, isTextB, if_true, if_false] at h1 h2
      have h3a : (bid :: bs.filterMap toolBlockId).Nodup := by
        simpa [toolBlockId] using h3
      obtain ⟨hbid, h3tl⟩ := List.nodup_cons.mp h3a
      rw [show List.filterMap (blockKey u) (ContentBlock.tool_use bid nm inp :: bs) =
            (u ++ "-tool-" ++ bid) :: bs.filterMap (blockKey u) from by simp [blockKey]]
      refine List.nodup_cons.mpr ⟨?_, ih (by omega) (by omega) h3tl⟩
      intro hmem
      obtain ⟨b2, hb2, hk⟩ := List.mem_filterMap.mp hmem
      cases b2 with
      | thinking th2 sig2 =>
        exact key_tn_ne_tool u bid (Option.some.inj hk)
      | text t2 =>
        exact key_tx_ne_tool u bid (Option.some.inj hk)
      | tool_use bid2 nm2 inp2 =>
        have hb : bid = bid2 := (key_tool_inj u bid2 bid (Option.some.inj hk)).symm
        exact hbid (List.mem_filterMap.mpr ⟨_, hb2, by simp [toolBlockId, hb]⟩)
      | tool_result_block tr2 =>
        exact Option.noConfusion hk
    | tool_result_block tr =>
      simp only [isThinkingB, isTextB, if_true, if_false] at h1 h2
      rw [show List.filterMap (blockKey u) (ContentBlock.tool_result_block tr :: bs) =
            bs.filterMap (blockKey u) from by simp [blockKey]]
      exact ih (by omega) (by omega) (by simpa [toolBlockId] using h3)

/-- Upserting a node makes it retrievable under its id. -/
theorem mapGet_mapSet_self (st : List ConversationNode) (n : ConversationNode) :
    mapGet (mapSet st n) n.id = some n := by
  induction st with
  | nil => simp [mapSet, mapGet]
  | cons m ms ih =>
    unfold mapSet
    by_cases hm : (m.id == n.id) = true
    · rw [if_pos (by simp [List.any_cons, hm])]
      unfold mapGet
      rw [List.map_cons, if_pos hm, List.find?_cons_of_pos _ (by simp)]
    · by_cases hms : ms.any (fun m2 => m2.id == n.id) = true
      · rw [if_pos (by simp only [List.any_cons, hm, hms, Bool.false_or])]
        have hprev := ih
        unfold mapSet at hprev
        rw [if_pos hms] at hprev
        unfold mapGet at hprev ⊢
        rw [List.map_cons, if_neg hm, List.find?_cons_of_neg _ (by simpa using hm)]
        exact hprev
      · rw [if_neg (by simp [List.any_cons, hm, hms])]
        have hprev := ih
        unfold mapSet at hprev
        rw [if_neg hms] at hprev
        unfold mapGet at hprev ⊢
        rw [List.cons_append, List.find?_cons_of_neg _ (by simpa using hm)]
        exact hprev

/-- Replacing the entry with one id leaves lookups of other ids unchanged. -/
theorem find?_mapSet_map (ms : List ConversationNode) (m : ConversationNode) (i : String)
    (h : m.id ≠ i) :
    (ms.map (fun x => if x.id == m.id then m else x)).find? (fun x => x.id == i) =
    ms.find? (fun x => x.id == i) := by
  induction ms with
  | nil => rfl
  | cons a ms ih =>
    rw [List.map_cons]
    by_cases ha : (a.id == m.id) = true
    · have ha2 : a.id = m.id := by simpa using ha
      have hai : (a.id == i) = false := by
        simp [ha2]
        exact h
      have hmi : (m.id == i) = false := by
        simp
        exact h
      rw [if_pos ha, List.find?_cons_of_neg _ (by simp [hmi]),
          List.find?_cons_of_neg _ (by simp [hai])]
      exact ih
    · rw [if_neg ha]
      by_cases hai : (a.id == i) = true
      · rw [List.find?_cons_of_pos _ (by simpa using hai),
            List.find?_cons_of_pos _ (by simpa using hai)]
      · rw [List.find?_cons_of_neg _ (by simpa using hai),
            List.find?_cons_of_neg _ (by simpa using hai)]
        exact ih

/-- Upserting one node leaves lookups of other ids unchanged. -/
theorem mapGet_mapSet_other (st : List ConversationNode) (m : ConversationNode) (i : String)
    (h : m.id ≠ i) : mapGet (mapSet st m) i = mapGet st i := by
  unfold mapSet mapGet
  by_cases hany : st.any (fun x => x.id == m.id) = true
  · rw [if_pos hany]
    exact find?_mapSet_map st m i h
  · rw [if_neg hany, List.find?_append]
    have hnone : [m].find? (fun x => x.id == i) = none := by
      rw [List.find?_cons_of_neg _ (by simpa using h)]
      rfl
    rw [hnone]
    cases st.find? (fun x => x.id == i) <;> rfl

/-- Folding upserts of nodes with other ids preserves a lookup. -/
theorem foldl_mapSet_preserve (ns : List ConversationNode) (i : String) :
    ∀ st, (∀ x ∈ ns, x.id ≠ i) → mapGet (ns.foldl mapSet st) i = mapGet st i := by
  induction ns with
  | nil => intro st _; rfl
  | cons m ms ih =>
    intro st h
    rw [List.foldl_cons, ih (mapSet st m) (fun x hx => h x (List.mem_cons_of_mem m hx)),
        mapGet_mapSet_other st m i (h m (List.mem_cons_self m ms))]

/-- When the folded nodes have pairwise distinct ids, every one of them
survives: it is retrievable by its id after the whole fold. -/
theorem foldl_mapSet_mem (ns : List ConversationNode) :
    ((ns.map (fun n => n.id)).Nodup) →
    ∀ (st : List ConversationNode) (n : ConversationNode), n ∈ ns →
      mapGet (ns.foldl mapSet st) n.id = some n := by
  induction ns with
  | nil =>
    intro _ st n hn
    simp at hn
  | cons m ms ih =>
    intro hnd st n hn
    rw [List.map_cons] at hnd
    obtain ⟨hm, htl⟩ := List.nodup_cons.mp hnd
    rw [List.foldl_cons]
    rcases List.mem_cons.mp hn with rfl | hmem
    · rw [foldl_mapSet_preserve ms n.id (mapSet st n) ?_, mapGet_mapSet_self]
      intro x hx hxe
      exact hm (hxe ▸ List.mem_map_of_mem (fun n2 => n2.id) hx)
    · exact ih htl (mapSet st m) n hmem

/-- C4 (amended): the nodes expanded from one assistant record have
pairwise distinct identifiers — and all survive insertion into the
registry — provided the record carries at most one thinking segment, at
most one text segment, and pairwise distinct tool_use block ids; the
kind-based discriminator does not separate several segments of the same
kind. -/
theorem claim_C4 (a : AssistantMessageEntry)
    (h1 : a.content.countP isThinkingB ≤ 1) (h2 : a.content.countP isTextB ≤ 1)
    (h3 : (a.content.filterMap toolBlockId).Nodup) :
    ((createAssistantNodes a).map (fun n => n.id)).Nodup ∧
    ∀ (st : List ConversationNode) (n : ConversationNode), n ∈ createAssistantNodes a →
      mapGet ((createAssistantNodes a).foldl mapSet st) n.id = some n := by
  have hnd : ((createAssistantNodes a).map (fun n => n.id)).Nodup := by
    rw [createAssistantNodes_ids]
    exact blockKeys_nodup a.uuid a.content h1 h2 h3
  exact ⟨hnd, foldl_mapSet_mem _ hnd⟩

/-- C4 counterexample: a record with two text segments yields two nodes
with the same identifier `u-text`; only the later one survives insertion. -/
theorem claim_C4_cex :
    ((createAssistantNodes c4CexEntry).map fun n => n.id) = ["u-text", "u-text"] ∧
    ¬ ((createAssistantNodes c4CexEntry).map fun n => n.id).Nodup ∧
    (createAssistantNodes c4CexEntry).length = 2 ∧
    ((createAssistantNodes c4CexEntry).foldl mapSet []).length = 1 ∧
    (((createAssistantNodes c4CexEntry).foldl mapSet []).map fun n => n.summary) =
      ["second"] := by
  refine ⟨by decide, by decide, by decide, by decide, by decide⟩

/-- C4 witness: thinking + text + two tools with distinct block ids. -/
theorem claim_C4_witness :
    (c4WitEntry.content.countP isThinkingB ≤ 1 ∧ c4WitEntry.content.countP isTextB ≤ 1 ∧
      (c4WitEntry.content.filterMap toolBlockId).Nodup) ∧
    ((createAssistantNodes c4WitEntry).map (fun n => n.id)).Nodup ∧
    ∀ (st : List ConversationNode) (n : ConversationNode), n ∈ createAssistantNodes c4WitEntry →
      mapGet ((createAssistantNodes c4WitEntry).foldl mapSet st) n.id = some n :=
  ⟨⟨by decide, by decide, by decide⟩,
   claim_C4 c4WitEntry (by decide) (by decide) (by decide)⟩

/- ## C2: line-index skipping vs. fingerprint dedup -/

/-- A valid line has a non-empty trim. -/
theorem valid_trim_ne (l : Line) (h : isValidJsonLine l = true) :
    (!(jsTrim l.raw).isEmpty) = true := by
  unfold isValidJsonLine at h
  simp only [Bool.and_eq_true] at h
  exact h.1.1.1

/-- A file of valid lines passes the non-empty filter unchanged. -/
theorem nonEmptyLines_of_valid (ls : List Line) (hv : ∀ l ∈ ls, isValidJsonLine l = true) :
    nonEmptyLines ls = ls :=
  List.filter_eq_self.mpr fun l hl => valid_trim_ne l (hv l hl)

/-- `setAdd` preserves membership. -/
theorem mem_setAdd (s : List String) (x y : String) (h : x ∈ s) : x ∈ setAdd s y := by
  unfold setAdd
  split
  · exact h
  · exact List.mem_append_left _ h

/-- The added fingerprint is a member afterwards. -/
theorem mem_setAdd_self (s : List String) (x : String) : x ∈ setAdd s x := by
  unfold setAdd
  split
  · next hc => exact List.elem_iff.mp hc
  · exact List.mem_append_right _ (List.mem_singleton.mpr rfl)

/-- One line step only grows the fingerprint set. -/
theorem stepLine_processed_mono (st : WatcherState) (l : Line) (h : String)
    (hm : h ∈ st.processedLines) : h ∈ (stepLine st l).1.processedLines := by
  cases hv : isValidJsonLine l with
  | false => simpa [stepLine, hv] using hm
  | true =>
    by_cases hc : hashLine l ∈ st.processedLines
    · simpa [stepLine, hv, hc] using hm
    · have h2 := mem_setAdd st.processedLines h (hashLine l) hm
      simpa [stepLine, hv, hc] using h2

/-- The line fold only grows the fingerprint set. -/
theorem runLines_processed_mono (ls : List Line) : ∀ (st : WatcherState) (h : String),
    h ∈ st.processedLines → h ∈ (runLines st ls).processedLines := by
  induction ls with
  | nil => intro st h hm; exact hm
  | cons l ls ih =>
    intro st h hm
    exact ih _ _ (stepLine_processed_mono st l h hm)

/-- After stepping a valid line, its fingerprint is recorded. -/
theorem stepLine_hash_mem_self (st : WatcherState) (l : Line)
    (hv : isValidJsonLine l = true) : hashLine l ∈ (stepLine st l).1.processedLines := by
  unfold stepLine
  rw [if_pos hv]
  by_cases hc : st.processedLines.contains (hashLine l) = true
  · rw [if_pos hc]
    exact List.elem_iff.mp hc
  · rw [if_neg hc]
    exact mem_setAdd_self _ _

/-- After the fold, every valid processed line's fingerprint is recorded. -/
theorem runLines_hash_mem (ls : List Line) : ∀ (st : WatcherState) (l : Line), l ∈ ls →
    isValidJsonLine l = true → hashLine l ∈ (runLines st ls).processedLines := by
  induction ls with
  | nil =>
    intro st l hl _
    simp at hl
  | cons m ms ih =>
    intro st l hl hv
    rcases List.mem_cons.mp hl with rfl | hmem
    · exact runLines_processed_mono ms _ _ (stepLine_hash_mem_self st l hv)
    · exact ih _ l hmem hv

/-- A valid line whose fingerprint is already recorded is a strict no-op. -/
theorem stepLine_skip (st : WatcherState) (l : Line) (hv : isValidJsonLine l = true)
    (hm : hashLine l ∈ st.processedLines) : stepLine st l = (st, false) := by
  unfold stepLine
  rw [if_pos hv, if_pos (List.elem_iff.mpr hm)]

/-- Re-folding already-fingerprinted valid lines is the identity. -/
theorem runLines_skip (ls : List Line) : ∀ (st : WatcherState),
    (∀ l ∈ ls, isValidJsonLine l = true) →
    (∀ l ∈ ls, hashLine l ∈ st.processedLines) → runLines st ls = st := by
  induction ls with
  | nil => intro st _ _; rfl
  | cons m ms ih =>
    intro st hv hm
    have hstep : stepLine st m = (st, false) :=
      stepLine_skip st m (hv m (List.mem_cons_self m ms)) (hm m (List.mem_cons_self m ms))
    show runLines (stepLine st m).1 ms = st
    rw [hstep]
    exact ih st (fun l hl => hv l (List.mem_cons_of_mem m hl))
      (fun l hl => hm l (List.mem_cons_of_mem m hl))

/-- An invalid line is a strict no-op for the per-line body. -/
theorem stepLine_invalid (st : WatcherState) (l : Line)
    (hv : ¬ isValidJsonLine l = true) : stepLine st l = (st, false) := by
  unfold stepLine
  rw [if_neg hv]

/-- Re-folding already-seen lines is the identity: a valid line's
fingerprint is already recorded, an invalid line is a no-op. -/
theorem runLines_reskip (ls : List Line) : ∀ (st : WatcherState),
    (∀ l ∈ ls, isValidJsonLine l = true → hashLine l ∈ st.processedLines) →
    runLines st ls = st := by
  induction ls with
  | nil => intro st _; rfl
  | cons m ms ih =>
    intro st hm
    have hstep : stepLine st m = (st, false) := by
      by_cases hv : isValidJsonLine m = true
      · exact stepLine_skip st m hv (hm m (List.mem_cons_self m ms) hv)
      · exact stepLine_invalid st m hv
    show runLines (stepLine st m).1 ms = st
    rw [hstep]
    exact ih st (fun l hl hv => hm l (List.mem_cons_of_mem m hl) hv)

/-- One read step: on an append-only read, the index-skipping read and the
dedup-over-everything read agree, and the tracker invariant is maintained.
No validity assumption is needed: a previously seen line is either
fingerprinted (valid) or a strict no-op (invalid) for both processes. -/
theorem c2Step (st : WatcherState) (acc c : List Line)
    (hllc : st.lastLineCount = (nonEmptyLines acc).length)
    (hmem : ∀ l ∈ acc, isValidJsonLine l = true → hashLine l ∈ st.processedLines) :
    (readNewContent st (acc ++ c)).1 = specDedupRead st (acc ++ c) ∧
    (readNewContent st (acc ++ c)).1.lastLineCount = (nonEmptyLines (acc ++ c)).length ∧
    (∀ l ∈ acc ++ c, isValidJsonLine l = true →
      hashLine l ∈ (readNewContent st (acc ++ c)).1.processedLines) := by
  have hsplit : nonEmptyLines (acc ++ c) = nonEmptyLines acc ++ nonEmptyLines c := by
    simp [nonEmptyLines, List.filter_append]
  have hskip : runLines st (nonEmptyLines acc) = st :=
    runLines_reskip (nonEmptyLines acc) st
      (fun l hl hv => hmem l (List.mem_of_mem_filter hl) hv)
  have hspec : specDedupRead st (acc ++ c) =
      { runLines st (nonEmptyLines c) with
          lastLineCount := (nonEmptyLines (acc ++ c)).length } := by
    simp only [specDedupRead]
    rw [hsplit, runLines_append, hskip]
  by_cases hc : nonEmptyLines c = []
  · have hle : (nonEmptyLines (acc ++ c)).length ≤ st.lastLineCount := by
      rw [hsplit, hc, List.append_nil, hllc]
    rw [readNewContent_same_count st _ hle]
    refine ⟨?_, ?_, ?_⟩
    · show st = specDedupRead st (acc ++ c)
      rw [hspec, hc, hsplit, hc, List.append_nil, ← hllc]
      rfl
    · show st.lastLineCount = (nonEmptyLines (acc ++ c)).length
      rw [hsplit, hc, List.append_nil, hllc]
    · intro l hl hv
      rcases List.mem_append.mp hl with h | h
      · exact hmem l h hv
      · have hlc : l ∈ nonEmptyLines c := List.mem_filter.mpr ⟨h, valid_trim_ne l hv⟩
        rw [hc] at hlc
        cases hlc
  · have hlt : ¬ ((nonEmptyLines (acc ++ c)).length ≤ st.lastLineCount) := by
      rw [hsplit, List.length_append, hllc]
      have := List.length_pos.mpr hc
      omega
    have hdrop : (nonEmptyLines (acc ++ c)).drop st.lastLineCount = nonEmptyLines c := by
      rw [hsplit, hllc, List.drop_left]
    have hreal : (readNewContent st (acc ++ c)).1 =
        { runLines st (nonEmptyLines c) with
            lastLineCount := (nonEmptyLines (acc ++ c)).length } := by
      simp only [readNewContent, if_neg hlt, hdrop, readFold_fst]
    refine ⟨by rw [hreal, hspec], by rw [hreal], ?_⟩
    intro l hl hv
    rw [hreal]
    show hashLine l ∈ (runLines st (nonEmptyLines c)).processedLines
    rcases List.mem_append.mp hl with h | h
    · exact runLines_processed_mono _ st _ (hmem l h hv)
    · have hlc : l ∈ nonEmptyLines c := List.mem_filter.mpr ⟨h, valid_trim_ne l hv⟩
      exact runLines_hash_mem _ st l hlc hv

/-- The read loop: starting from any invariant-satisfying state, the real
tracker and the reference dedup agree over all later append-only reads. -/
theorem c2Loop (cs : List (List Line)) : ∀ (acc : List Line) (st : WatcherState),
    st.lastLineCount = (nonEmptyLines acc).length →
    (∀ l ∈ acc, isValidJsonLine l = true → hashLine l ∈ st.processedLines) →
    (accumFrom acc cs).foldl (fun st2 r => (readNewContent st2 r).1) st =
      (accumFrom acc cs).foldl specDedupRead st := by
  induction cs with
  | nil => intro acc st _ _; rfl
  | cons c cs ih =>
    intro acc st hllc hmem
    show ((acc ++ c) :: accumFrom (acc ++ c) cs).foldl _ st =
      ((acc ++ c) :: accumFrom (acc ++ c) cs).foldl _ st
    simp only [List.foldl_cons]
    obtain ⟨heq, hllc2, hmem2⟩ := c2Step st acc c hllc hmem
    rw [heq]
    exact ih (acc ++ c) (specDedupRead st (acc ++ c))
      (heq ▸ hllc2)
      (fun l hl hv => heq ▸ hmem2 l hl hv)

/-- C2 (amended): on every append-only sequence of reads - each read
extends the previous one by appending lines - the line-index skip is
behavior-preserving: the final state, registry included, equals that of
fingerprint-based dedup over every non-empty trimmed line of every read.
No validity assumption is needed: a persistently invalid line is a strict
no-op for both processes.  Over arbitrary read sequences the claim fails:
see the counterexample, where a partial line completed in place below the
recorded line count is never processed. -/
theorem claim_C2 (chunks : List (List Line)) :
    realRun (accumReads chunks) = specRun (accumReads chunks) ∧
    (realRun (accumReads chunks)).nodes = (specRun (accumReads chunks)).nodes := by
  have main : realRun (accumReads chunks) = specRun (accumReads chunks) := by
    cases chunks with
    | nil => rfl
    | cons c0 cs =>
      show (accumFrom c0 cs).foldl (fun st2 r => (readNewContent st2 r).1)
          (readFileFn initState c0) =
        (accumFrom c0 cs).foldl specDedupRead (specDedupRead initState c0)
      have hbase : readFileFn initState c0 = specDedupRead initState c0 := rfl
      rw [← hbase]
      exact c2Loop cs c0 (readFileFn initState c0)
        rfl
        (fun l hl hv => by
          show hashLine l ∈ (runLines initState (nonEmptyLines c0)).processedLines
          have hlc : l ∈ nonEmptyLines c0 := List.mem_filter.mpr ⟨hl, valid_trim_ne l hv⟩
          exact runLines_hash_mem _ initState l hlc hv)
  exact ⟨main, by rw [main]⟩

/-- C2 counterexample: read 1 sees a partial trailing line (counted but
invalid); read 2 sees the same line completed in place.  The tracker skips
it forever — the reference dedup processes it. -/
theorem claim_C2_cex :
    (realRun [[c2Partial], [c2Complete]]).nodes = [] ∧
    ((specRun [[c2Partial], [c2Complete]]).nodes.map fun n => n.id) = ["cu1"] ∧
    (realRun [[c2Partial], [c2Complete]]).nodes ≠ (specRun [[c2Partial], [c2Complete]]).nodes := by
  refine ⟨by decide, by decide, by decide⟩

/- ## C5: idempotent rebuild -/

/-- Resetting children erases any children-only update. -/
theorem map_reset_of_children_only (arr : List ConversationNode)
    (g : ConversationNode → ConversationNode)
    (hg : ∀ n, ∃ c, g n = { n with children := c }) :
    (arr.map g).map resetChildren = arr.map resetChildren := by
  rw [List.map_map]
  refine List.map_congr_left fun n _ => ?_
  obtain ⟨c, hc⟩ := hg n
  show resetChildren (g n) = resetChildren n
  rw [hc]
  rfl

/-- Resetting twice is resetting once. -/
theorem map_reset_reset (store : List ConversationNode) :
    ((store.map resetChildren).map resetChildren) = store.map resetChildren := by
  rw [List.map_map]
  exact List.map_congr_left fun n _ => rfl

/-- The post-rebuild registry differs from the registry only in the
children arrays. -/
theorem snapshotState_reset (store : List ConversationNode) :
    (snapshotState store).map resetChildren = store.map resetChildren := by
  simp only [snapshotState]
  split
  · exact (map_reset_of_children_only _ _ fun n => ⟨_, rfl⟩).trans (map_reset_reset store)
  · split
    · refine (map_reset_of_children_only _ _ fun n => ?_).trans (map_reset_reset store)
      by_cases h : ((flattenTree (store.map resetChildren)
          (buildTreeRoots (store.map resetChildren))).any
            (fun m => m.id == n.id)) = true
      · exact ⟨[], by rw [if_pos h]⟩
      · exact ⟨_, by rw [if_neg h]⟩
    · refine (map_reset_of_children_only _ _ fun n => ?_).trans (map_reset_reset store)
      by_cases h : ((flattenTree (store.map resetChildren)
          (buildTreeRoots (store.map resetChildren))).any
            (fun m => m.id == n.id)) = true
      · exact ⟨_, by rw [if_pos h]⟩
      · exact ⟨_, by rw [if_neg h]⟩

/-- The rebuilt tree depends on the registry only through its
children-reset form. -/
theorem buildTree_congr (s1 s2 : List ConversationNode)
    (h : s1.map resetChildren = s2.map resetChildren) : buildTree s1 = buildTree s2 := by
  simp only [buildTree, h]

/-- The post-rebuild registry depends on the registry only through its
children-reset form. -/
theorem snapshotState_congr (s1 s2 : List ConversationNode)
    (h : s1.map resetChildren = s2.map resetChildren) : snapshotState s1 = snapshotState s2 := by
  simp only [snapshotState, h]

/-- C5: rebuilding twice with no intervening upsert yields a structurally
identical tree — and an identical post-rebuild registry — even though each
pass rewrites every children array in place. -/
theorem claim_C5 (store : List ConversationNode) :
    buildTree (snapshotState store) = buildTree store ∧
    snapshotState (snapshotState store) = snapshotState store := by
  have h := snapshotState_reset store
  exact ⟨buildTree_congr _ _ h, snapshotState_congr _ _ h⟩

/- ## C1: no duplication in the reorganized tree -/

/-- Chain recursion splits over addition. -/
theorem anc_add (arr : List ConversationNode) (a : Nat) :
    ∀ (b : Nat) (n : ConversationNode), anc arr (a + b) n = (anc arr a n).bind (anc arr b) := by
  intro b
  induction b with
  | zero =>
    intro n
    rw [Nat.add_zero]
    cases h : anc arr a n with
    | none => simp [h]
    | some m => simp [h, anc]
  | succ b ih =>
    intro n
    show anc arr (a + b + 1) n = _
    rw [show anc arr (a + b + 1) n = (anc arr (a + b) n).bind (parentOf arr) from rfl, ih n]
    cases anc arr a n with
    | none => rfl
    | some m =>
      show (anc arr b m).bind (parentOf arr) = anc arr (b + 1) m
      rfl

/-- One chain step is the parent. -/
theorem anc_one (arr : List ConversationNode) (n : ConversationNode) :
    anc arr 1 n = parentOf arr n := rfl

/-- In a duplicate-free registry, looking up a member's id finds it. -/
theorem find_self (arr : List ConversationNode) (hnd : (arr.map (fun x => x.id)).Nodup)
    (n : ConversationNode) (hn : n ∈ arr) : arr.find? (fun m => m.id == n.id) = some n := by
  induction arr with
  | nil => simp at hn
  | cons a as ih =>
    rw [List.map_cons] at hnd
    obtain ⟨ha, htl⟩ := List.nodup_cons.mp hnd
    by_cases he : (a.id == n.id) = true
    · have hfind : List.find? (fun m => m.id == n.id) (a :: as) = some a :=
        List.find?_cons_of_pos as he
      rw [hfind]
      rcases List.mem_cons.mp hn with rfl | hmem
      · rfl
      · have hae : a.id = n.id := by simpa using he
        rw [hae] at ha
        exact absurd (List.mem_map_of_mem (fun x => x.id) hmem) ha
    · have hfind : List.find? (fun m => m.id == n.id) (a :: as) =
          List.find? (fun m => m.id == n.id) as :=
        List.find?_cons_of_neg as (by simpa using he)
      rw [hfind]
      rcases List.mem_cons.mp hn with rfl | hmem
      · simp at he
      · exact ih htl hmem

/-- Membership in a phase-A child list. -/
theorem mem_childNodes (arr : List ConversationNode) (p c : ConversationNode) :
    c ∈ childNodes arr p ↔ c ∈ arr ∧ c.parentId = some p.id := by
  simp [childNodes, List.mem_filter]

/-- Membership in the stable sort. -/
theorem mem_sortTs (l : List ConversationNode) (c : ConversationNode) :
    c ∈ sortTs l ↔ c ∈ l :=
  (List.perm_insertionSort tsLe l).mem_iff

/-- A phase-A child's unique parent entry is its list parent. -/
theorem parentOf_child (arr : List ConversationNode) (hnd : (arr.map (fun x => x.id)).Nodup)
    (p : ConversationNode) (hp : p ∈ arr) (c : ConversationNode)
    (hc : c ∈ childNodes arr p) : parentOf arr c = some p := by
  obtain ⟨_, hpar⟩ := (mem_childNodes arr p c).mp hc
  unfold parentOf
  rw [hpar]
  exact find_self arr hnd p hp

/-- Children of an acyclic node are acyclic. -/
theorem noCycle_child (arr : List ConversationNode) (hnd : (arr.map (fun x => x.id)).Nodup)
    (p : ConversationNode) (hp : p ∈ arr) (hnc : NoCycle arr p) (c : ConversationNode)
    (hc : c ∈ childNodes arr p) : NoCycle arr c := by
  intro k hk hcontra
  have h1 : anc arr 1 c = some p := by
    rw [anc_one]
    exact parentOf_child arr hnd p hp c hc
  have h2 : anc arr (1 + k) c = anc arr k p := by
    rw [anc_add arr 1 k c, h1]
    rfl
  have h3 : anc arr (k + 1) c = some p := by
    rw [anc_add arr k 1 c, hcontra]
    exact h1
  rw [Nat.add_comm 1 k, h3] at h2
  exact hnc k hk h2.symm

/-- The chain from a parentless node dies immediately. -/
theorem anc_root_none (arr : List ConversationNode) (r : ConversationNode)
    (hr : parentOf arr r = none) : ∀ k, 0 < k → anc arr k r = none := by
  intro k hk
  cases k with
  | zero => omega
  | succ k =>
    induction k with
    | zero =>
      show (anc arr 0 r).bind (parentOf arr) = none
      simp [anc, hr]
    | succ k ih =>
      show (anc arr (k + 1) r).bind (parentOf arr) = none
      rw [ih (by omega)]
      rfl

/-- Parentless nodes are acyclic. -/
theorem noCycle_root (arr : List ConversationNode) (r : ConversationNode)
    (hr : parentOf arr r = none) : NoCycle arr r := by
  intro k hk hcontra
  rw [anc_root_none arr r hr k hk] at hcontra
  exact Option.noConfusion hcontra

/-- Core impossibility: a strictly positive chain cannot lead from one
child of an acyclic node to a child of the same node. -/
theorem anc_between_children (arr : List ConversationNode)
    (hnd : (arr.map (fun x => x.id)).Nodup) (p : ConversationNode) (hp : p ∈ arr)
    (hnc : NoCycle arr p) (c1 c2 : ConversationNode) (h1 : c1 ∈ childNodes arr p)
    (h2 : c2 ∈ childNodes arr p) (d : Nat) (hd : 0 < d)
    (h : anc arr d c1 = some c2) : False := by
  have e1 : anc arr 1 c1 = some p := by
    rw [anc_one]
    exact parentOf_child arr hnd p hp c1 h1
  have e2 : anc arr (d - 1) p = some c2 := by
    have := anc_add arr 1 (d - 1) c1
    rw [e1] at this
    have hsum : 1 + (d - 1) = d := by omega
    rw [hsum, h] at this
    exact this.symm
  by_cases hz : d - 1 = 0
  · rw [hz] at e2
    have hpc2 : p = c2 := Option.some.inj e2
    have hpc : parentOf arr c2 = some p := parentOf_child arr hnd p hp c2 h2
    have : anc arr 1 p = some p := by
      rw [anc_one, hpc2]
      exact hpc.trans (by rw [hpc2])
    exact hnc 1 (by omega) this
  · have : anc arr (d - 1 + 1) p = some p := by
      rw [show anc arr (d - 1 + 1) p = (anc arr (d - 1) p).bind (parentOf arr) from rfl, e2]
      show parentOf arr c2 = some p
      exact parentOf_child arr hnd p hp c2 h2
    exact hnc (d - 1 + 1) (by omega) this

/-- Unfolding the preorder flatten. -/
theorem flattenSub_succ (arr : List ConversationNode) (fuel : Nat) (n : ConversationNode) :
    flattenSub arr (fuel + 1) n =
      n :: ((sortTs (childNodes arr n)).map (flattenSub arr fuel)).flatten := rfl

/-- Every id below a node in the flatten either is the node's id or belongs
to a registry node whose strictly positive parent chain reaches the node. -/
theorem flattenSub_ids (arr : List ConversationNode)
    (hnd : (arr.map (fun x => x.id)).Nodup) : ∀ (fuel : Nat) (n : ConversationNode), n ∈ arr →
    ∀ i, i ∈ (flattenSub arr fuel n).map (fun x => x.id) →
      i = n.id ∨ ∃ m, m ∈ arr ∧ m.id = i ∧ ∃ k, 0 < k ∧ anc arr k m = some n := by
  intro fuel
  induction fuel with
  | zero =>
    intro n _ i hi
    simp [flattenSub] at hi
    exact Or.inl hi
  | succ fuel ih =>
    intro n hn i hi
    rw [flattenSub_succ, List.map_cons] at hi
    rcases List.mem_cons.mp hi with h | h
    · exact Or.inl h
    · rw [List.map_flatten, List.map_map] at h
      obtain ⟨l, hl, hil⟩ := List.mem_flatten.mp h
      obtain ⟨c, hc, hcl⟩ := List.mem_map.mp hl
      have hcmem : c ∈ childNodes arr n := (mem_sortTs _ c).mp hc
      have hcarr : c ∈ arr := ((mem_childNodes arr n c).mp hcmem).1
      have hpar : parentOf arr c = some n := parentOf_child arr hnd n hn c hcmem
      rw [← hcl] at hil
      rcases ih c hcarr i hil with h2 | h2
      · exact Or.inr ⟨c, hcarr, h2.symm, 1, by omega, by rw [anc_one, hpar]⟩
      · obtain ⟨m, hm, hmi, k, hk, hanc⟩ := h2
        refine Or.inr ⟨m, hm, hmi, k + 1, by omega, ?_⟩
        rw [show anc arr (k + 1) m = (anc arr k m).bind (parentOf arr) from rfl, hanc]
        exact hpar

/-- A strictly positive chain between two distinct-id children of an
acyclic node is impossible; a zero chain forces equal ids. -/
theorem subtree_core (arr : List ConversationNode)
    (hnd : (arr.map (fun x => x.id)).Nodup) (p : ConversationNode) (hp : p ∈ arr)
    (hnc : NoCycle arr p) (c1 c2 : ConversationNode) (h1 : c1 ∈ childNodes arr p)
    (h2 : c2 ∈ childNodes arr p) (hne : c1.id ≠ c2.id) (d : Nat)
    (h : anc arr d c1 = some c2) : False := by
  cases Nat.eq_zero_or_pos d with
  | inl hz =>
    rw [hz] at h
    exact hne (congrArg (fun x => x.id) (Option.some.inj h))
  | inr hpos => exact anc_between_children arr hnd p hp hnc c1 c2 h1 h2 d hpos h

/-- The flatten below a root-reachable acyclic node has duplicate-free
identifiers. -/
theorem flattenSub_nodup (arr : List ConversationNode)
    (hnd : (arr.map (fun x => x.id)).Nodup) : ∀ (fuel : Nat) (n : ConversationNode), n ∈ arr →
    NoCycle arr n → ((flattenSub arr fuel n).map (fun x => x.id)).Nodup := by
  intro fuel
  induction fuel with
  | zero =>
    intro n _ _
    simp [flattenSub]
  | succ fuel ih =>
    intro n hn hnc
    rw [flattenSub_succ, List.map_cons, List.map_flatten, List.map_map]
    refine List.nodup_cons.mpr ⟨?_, ?_⟩
    · intro hmem
      obtain ⟨l, hl, hil⟩ := List.mem_flatten.mp hmem
      obtain ⟨c, hc, rfl⟩ := List.mem_map.mp hl
      have hcm : c ∈ childNodes arr n := (mem_sortTs _ c).mp hc
      have hcarr : c ∈ arr := ((mem_childNodes arr n c).mp hcm).1
      rcases flattenSub_ids arr hnd fuel c hcarr n.id hil with h | h
      · have hcn : c = n := List.inj_on_of_nodup_map hnd hcarr hn h.symm
        subst hcn
        have hself : anc arr 1 c = some c := by
          rw [anc_one]
          exact parentOf_child arr hnd c hn c hcm
        exact hnc 1 (by omega) hself
      · obtain ⟨m, hm, hmi, k, hk, hanc⟩ := h
        have hmn : m = n := List.inj_on_of_nodup_map hnd hm hn hmi
        subst hmn
        have : anc arr (k + 1) m = some m := by
          rw [show anc arr (k + 1) m = (anc arr k m).bind (parentOf arr) from rfl, hanc]
          show parentOf arr c = some m
          exact parentOf_child arr hnd m hn c hcm
        exact hnc (k + 1) (by omega) this
    · rw [List.nodup_flatten]
      constructor
      · intro l hl
        obtain ⟨c, hc, rfl⟩ := List.mem_map.mp hl
        have hcm := (mem_sortTs _ c).mp hc
        exact ih c ((mem_childNodes arr n c).mp hcm).1 (noCycle_child arr hnd n hn hnc c hcm)
      · rw [List.pairwise_map]
        have hcs_nodup : ((sortTs (childNodes arr n)).map (fun x => x.id)).Nodup := by
          have h1 : (childNodes arr n).Sublist arr := List.filter_sublist arr
          have h2 := (h1.map (fun x => x.id)).nodup hnd
          exact ((List.perm_insertionSort tsLe (childNodes arr n)).map
            (fun x => x.id)).nodup_iff.mpr h2
        have hpw : List.Pairwise (fun c1 c2 : ConversationNode => c1.id ≠ c2.id)
            (sortTs (childNodes arr n)) := by
          have h3 := hcs_nodup
          rw [List.Nodup, List.pairwise_map] at h3
          exact h3
        refine hpw.imp_of_mem ?_
        intro c1 c2 h1m h2m hne i hi1 hi2
        have h1c : c1 ∈ childNodes arr n := (mem_sortTs _ c1).mp h1m
        have h2c : c2 ∈ childNodes arr n := (mem_sortTs _ c2).mp h2m
        have h1arr : c1 ∈ arr := ((mem_childNodes arr n c1).mp h1c).1
        have h2arr : c2 ∈ arr := ((mem_childNodes arr n c2).mp h2c).1
        rcases flattenSub_ids arr hnd fuel c1 h1arr i hi1 with ha | ha <;>
          rcases flattenSub_ids arr hnd fuel c2 h2arr i hi2 with hb | hb
        · exact hne (ha ▸ hb ▸ rfl)
        · obtain ⟨m2, hm2, hmi2, k2, hk2, hanc2⟩ := hb
          have hmc : m2 = c1 := List.inj_on_of_nodup_map hnd hm2 h1arr (by rw [hmi2, ha])
          exact anc_between_children arr hnd n hn hnc c1 c2 h1c h2c k2 hk2 (hmc ▸ hanc2)
        · obtain ⟨m1, hm1, hmi1, k1, hk1, hanc1⟩ := ha
          have hmc : m1 = c2 := List.inj_on_of_nodup_map hnd hm1 h2arr (by rw [hmi1, hb])
          exact anc_between_children arr hnd n hn hnc c2 c1 h2c h1c k1 hk1 (hmc ▸ hanc1)
        · obtain ⟨m1, hm1, hmi1, k1, hk1, hanc1⟩ := ha
          obtain ⟨m2, hm2, hmi2, k2, hk2, hanc2⟩ := hb
          have hmm : m2 = m1 := List.inj_on_of_nodup_map hnd hm2 hm1 (by rw [hmi2, hmi1])
          subst hmm
          rcases Nat.le_total k1 k2 with hle | hle
          · have : anc arr (k2 - k1) c1 = some c2 := by
              have hsplit := anc_add arr k1 (k2 - k1) m2
              rw [show k1 + (k2 - k1) = k2 from by omega, hanc2, hanc1] at hsplit
              exact hsplit.symm
            exact subtree_core arr hnd n hn hnc c1 c2 h1c h2c hne (k2 - k1) this
          · have : anc arr (k1 - k2) c2 = some c1 := by
              have hsplit := anc_add arr k2 (k1 - k2) m2
              rw [show k2 + (k1 - k2) = k1 from by omega, hanc1, hanc2] at hsplit
              exact hsplit.symm
            exact subtree_core arr hnd n hn hnc c2 c1 h2c h1c (Ne.symm hne) (k1 - k2) this

/-- Phase-A roots are registry members with no resolvable parent. -/
theorem buildTreeRoots_mem (arr : List ConversationNode) (r : ConversationNode)
    (h : r ∈ buildTreeRoots arr) : r ∈ arr ∧ parentOf arr r = none := by
  have h2 := (mem_sortTs _ r).mp h
  rw [List.mem_filter] at h2
  obtain ⟨hr, hpred⟩ := h2
  refine ⟨hr, ?_⟩
  unfold parentOf
  cases hp : r.parentId with
  | none => rfl
  | some p =>
    simp only [hp] at hpred
    simp only [Bool.not_eq_true', List.any_eq_false] at hpred
    exact List.find?_eq_none.mpr fun x hx => by simpa using hpred x hx

/-- Phase-A root identifiers are duplicate-free. -/
theorem roots_ids_nodup (arr : List ConversationNode)
    (hnd : (arr.map (fun x => x.id)).Nodup) :
    ((buildTreeRoots arr).map (fun x => x.id)).Nodup := by
  have h1 : (arr.filter fun n =>
      match n.parentId with
      | none => true
      | some p => !arr.any (fun m => m.id == p)).Sublist arr := List.filter_sublist arr
  have h2 := (h1.map (fun x => x.id)).nodup hnd
  exact ((List.perm_insertionSort tsLe _).map (fun x => x.id)).nodup_iff.mpr h2

/-- The phase-A flatten of a duplicate-free registry has duplicate-free
identifiers. -/
theorem flattenTree_nodup (arr : List ConversationNode)
    (hnd : (arr.map (fun x => x.id)).Nodup) :
    ((flattenTree arr (buildTreeRoots arr)).map (fun x => x.id)).Nodup := by
  unfold flattenTree
  rw [List.map_flatten, List.map_map, List.nodup_flatten]
  constructor
  · intro l hl
    obtain ⟨r, hr, rfl⟩ := List.mem_map.mp hl
    obtain ⟨hrarr, hrpar⟩ := buildTreeRoots_mem arr r hr
    exact flattenSub_nodup arr hnd arr.length r hrarr (noCycle_root arr r hrpar)
  · rw [List.pairwise_map]
    have hpw : List.Pairwise (fun r1 r2 : ConversationNode => r1.id ≠ r2.id)
        (buildTreeRoots arr) := by
      have h3 := roots_ids_nodup arr hnd
      rw [List.Nodup, List.pairwise_map] at h3
      exact h3
    refine hpw.imp_of_mem ?_
    intro r1 r2 h1m h2m hne i hi1 hi2
    obtain ⟨h1arr, h1par⟩ := buildTreeRoots_mem arr r1 h1m
    obtain ⟨h2arr, h2par⟩ := buildTreeRoots_mem arr r2 h2m
    rcases flattenSub_ids arr hnd arr.length r1 h1arr i hi1 with ha | ha <;>
      rcases flattenSub_ids arr hnd arr.length r2 h2arr i hi2 with hb | hb
    · exact hne (ha ▸ hb ▸ rfl)
    · obtain ⟨m2, hm2, hmi2, k2, hk2, hanc2⟩ := hb
      have : m2 = r1 := List.inj_on_of_nodup_map hnd hm2 h1arr (by rw [hmi2, ha])
      subst this
      rw [anc_root_none arr m2 h1par k2 hk2] at hanc2
      exact Option.noConfusion hanc2
    · obtain ⟨m1, hm1, hmi1, k1, hk1, hanc1⟩ := ha
      have : m1 = r2 := List.inj_on_of_nodup_map hnd hm1 h2arr (by rw [hmi1, hb])
      subst this
      rw [anc_root_none arr m1 h2par k1 hk1] at hanc1
      exact Option.noConfusion hanc1
    · obtain ⟨m1, hm1, hmi1, k1, hk1, hanc1⟩ := ha
      obtain ⟨m2, hm2, hmi2, k2, hk2, hanc2⟩ := hb
      have hmm : m2 = m1 := List.inj_on_of_nodup_map hnd hm2 hm1 (by rw [hmi2, hmi1])
      subst hmm
      rcases Nat.le_total k1 k2 with hle | hle
      · have hsplit := anc_add arr k1 (k2 - k1) m2
        rw [show k1 + (k2 - k1) = k2 from by omega, hanc2, hanc1] at hsplit
        have hs2 : anc arr (k2 - k1) r1 = some r2 := hsplit.symm
        by_cases hz : k2 - k1 = 0
        · rw [hz] at hs2
          exact hne (congrArg (fun x => x.id) (Option.some.inj hs2))
        · rw [anc_root_none arr r1 h1par (k2 - k1) (by omega)] at hs2
          exact Option.noConfusion hs2
      · have hsplit := anc_add arr k2 (k1 - k2) m2
        rw [show k2 + (k1 - k2) = k1 from by omega, hanc1, hanc2] at hsplit
        have hs2 : anc arr (k1 - k2) r2 = some r1 := hsplit.symm
        by_cases hz : k1 - k2 = 0
        · rw [hz] at hs2
          exact hne (congrArg (fun x => x.id) (Option.some.inj hs2)).symm
        · rw [anc_root_none arr r2 h2par (k1 - k2) (by omega)] at hs2
          exact Option.noConfusion hs2

/-- `childIds` distributes over cons. -/
theorem childIds_cons (p : ChildPair) (ps : List ChildPair) :
    childIds (p :: ps) = pairIds p ++ childIds ps := rfl

/-- `childIds` distributes over append. -/
theorem childIds_append (a b : List ChildPair) :
    childIds (a ++ b) = childIds a ++ childIds b := by
  simp [childIds]

/-- `childIds` respects permutation. -/
theorem childIds_perm (a b : List ChildPair) (h : a.Perm b) :
    (childIds a).Perm (childIds b) :=
  List.Perm.flatten (h.map pairIds)

/-- Root-tree ids unfold. -/
theorem rootTreeIds_mk (n : ConversationNode) (ps : List ChildPair) :
    rootTreeIds (n, ps) = n.id :: childIds ps := rfl

/-- Forest ids distribute over cons. -/
theorem forestIds_cons (rt : RootTree) (f : Forest) :
    forestIds (rt :: f) = rootTreeIds rt ++ forestIds f := rfl

/-- Forest ids distribute over append. -/
theorem forestIds_append (a b : Forest) :
    forestIds (a ++ b) = forestIds a ++ forestIds b := by
  simp [forestIds]

/-- A leaf pair contributes exactly its node id. -/
theorem pairIds_leaf (n : ConversationNode) : pairIds (n, []) = [n.id] := rfl

/-- `contains` on the used-set is membership. -/
theorem scontains_iff (s : List String) (x : String) : s.contains x = true ↔ x ∈ s :=
  List.elem_iff

/-- Child ids of a list of leaf pairs. -/
theorem childIds_leaves (ms : List ConversationNode) :
    childIds (ms.map fun r => (r, ([] : List ConversationNode))) =
      ms.map (fun x => x.id) := by
  induction ms with
  | nil => rfl
  | cons m ms ih =>
    rw [List.map_cons, childIds_cons, pairIds_leaf, List.map_cons, List.singleton_append, ih]

/-- Membership in the fold that marks a list of result ids used. -/
theorem mem_foldl_usedAdd (ms : List ConversationNode) : ∀ (u : List String) (x : String),
    x ∈ ms.foldl (fun uu r => usedAdd uu r.id) u ↔ x ∈ u ∨ ∃ r ∈ ms, r.id = x := by
  induction ms with
  | nil =>
    intro u x
    simp
  | cons m ms ih =>
    intro u x
    rw [List.foldl_cons, ih (usedAdd u m.id) x]
    constructor
    · rintro (h | ⟨r, hr, hrx⟩)
      · rcases List.mem_cons.mp h with h2 | h2
        · exact Or.inr ⟨m, List.mem_cons_self m ms, h2.symm⟩
        · exact Or.inl h2
      · exact Or.inr ⟨r, List.mem_cons_of_mem m hr, hrx⟩
    · rintro (h | ⟨r, hr, hrx⟩)
      · exact Or.inl (List.mem_cons_of_mem _ h)
      · rcases List.mem_cons.mp hr with rfl | hr2
        · exact Or.inl (hrx ▸ List.mem_cons_self r.id u)
        · exact Or.inr ⟨r, hr2, hrx⟩

/-- Behavior of the thinking/secondary-response attachment loop. -/
theorem addChildLeaves_spec : ∀ (ns : List ConversationNode) (u : List String),
    (∀ x ∈ u, x ∈ (addChildLeaves u ns).1) ∧
    (∀ i ∈ childIds (addChildLeaves u ns).2,
      i ∉ u ∧ i ∈ (addChildLeaves u ns).1 ∧ ∃ n ∈ ns, n.id = i) ∧
    (childIds (addChildLeaves u ns).2).Nodup ∧
    (∀ x ∈ (addChildLeaves u ns).1, x ∈ u ∨ x ∈ childIds (addChildLeaves u ns).2) := by
  intro ns
  induction ns with
  | nil =>
    intro u
    refine ⟨fun x h => h, ?_, ?_, fun x h => Or.inl h⟩
    · intro i hi
      simp [addChildLeaves, childIds] at hi
    · simp [addChildLeaves, childIds]
  | cons t ts ih =>
    intro u
    by_cases hc : u.contains t.id = true
    · have heq : addChildLeaves u (t :: ts) = addChildLeaves u ts := by
        rw [addChildLeaves, if_pos hc]
      rw [heq]
      obtain ⟨a1, a2, a3, a4⟩ := ih u
      refine ⟨a1, ?_, a3, a4⟩
      intro i hi
      obtain ⟨b1, b2, n, hn, hni⟩ := a2 i hi
      exact ⟨b1, b2, n, List.mem_cons_of_mem t hn, hni⟩
    · have heq : addChildLeaves u (t :: ts) =
          ((addChildLeaves (usedAdd u t.id) ts).1,
            (t, []) :: (addChildLeaves (usedAdd u t.id) ts).2) := by
        rw [addChildLeaves, if_neg hc]
      rw [heq]
      obtain ⟨a1, a2, a3, a4⟩ := ih (usedAdd u t.id)
      have htu : t.id ∉ u := fun h => hc ((scontains_iff u t.id).mpr h)
      have htin : t.id ∈ (addChildLeaves (usedAdd u t.id) ts).1 :=
        a1 t.id (List.mem_cons_self t.id u)
      refine ⟨?_, ?_, ?_, ?_⟩
      · intro x hx
        exact a1 x (List.mem_cons_of_mem _ hx)
      · intro i hi
        rw [childIds_cons, pairIds_leaf, List.singleton_append] at hi
        rcases List.mem_cons.mp hi with h | h
        · subst h
          exact ⟨htu, htin, t, List.mem_cons_self t ts, rfl⟩
        · obtain ⟨b1, b2, n, hn, hni⟩ := a2 i h
          exact ⟨fun hiu => b1 (List.mem_cons_of_mem _ hiu), b2, n,
            List.mem_cons_of_mem t hn, hni⟩
      · rw [childIds_cons, pairIds_leaf, List.singleton_append]
        exact List.nodup_cons.mpr ⟨fun h => (a2 t.id h).1 (List.mem_cons_self t.id u), a3⟩
      · intro x hx
        rcases a4 x hx with h | h
        · rcases List.mem_cons.mp h with h2 | h2
          · subst h2
            exact Or.inr (by
              rw [childIds_cons, pairIds_leaf, List.singleton_append]
              exact List.mem_cons_self _ _)
          · exact Or.inl h2
        · exact Or.inr (by
            rw [childIds_cons, pairIds_leaf, List.singleton_append]
            exact List.mem_cons_of_mem _ h)

/-- Behavior of the tool-invocation attachment loop. -/
theorem addToolsWithResults_spec (toolResults : List ConversationNode)
    (hrs : (toolResults.map (fun x => x.id)).Nodup) :
    ∀ (ns : List ConversationNode) (u : List String),
    (∀ x ∈ u, x ∈ (addToolsWithResults toolResults u ns).1) ∧
    (∀ i ∈ childIds (addToolsWithResults toolResults u ns).2,
      i ∉ u ∧ i ∈ (addToolsWithResults toolResults u ns).1 ∧
        ((∃ n ∈ ns, n.id = i) ∨ ∃ r ∈ toolResults, r.id = i)) ∧
    (childIds (addToolsWithResults toolResults u ns).2).Nodup ∧
    (∀ x ∈ (addToolsWithResults toolResults u ns).1,
      x ∈ u ∨ x ∈ childIds (addToolsWithResults toolResults u ns).2) := by
  intro ns
  induction ns with
  | nil =>
    intro u
    refine ⟨fun x h => h, ?_, ?_, fun x h => Or.inl h⟩
    · intro i hi
      simp [addToolsWithResults, childIds] at hi
    · simp [addToolsWithResults, childIds]
  | cons t ts ih =>
    intro u
    by_cases hc : u.contains t.id = true
    · have heq : addToolsWithResults toolResults u (t :: ts) =
          addToolsWithResults toolResults u ts := by
        rw [addToolsWithResults, if_pos hc]
      rw [heq]
      obtain ⟨a1, a2, a3, a4⟩ := ih u
      refine ⟨a1, ?_, a3, a4⟩
      intro i hi
      obtain ⟨b1, b2, hsrc⟩ := a2 i hi
      refine ⟨b1, b2, ?_⟩
      rcases hsrc with ⟨n, hn, hni⟩ | hr
      · exact Or.inl ⟨n, List.mem_cons_of_mem t hn, hni⟩
      · exact Or.inr hr
    · set m := toolResults.filter
        (fun r => r.parentId == some t.id && !(usedAdd u t.id).contains r.id) with hm
      set u2 := m.foldl (fun uu r => usedAdd uu r.id) (usedAdd u t.id) with hu2d
      have heq : addToolsWithResults toolResults u (t :: ts) =
          ((addToolsWithResults toolResults u2 ts).1,
            (t, m) :: (addToolsWithResults toolResults u2 ts).2) := by
        rw [addToolsWithResults, if_neg hc]
      rw [heq]
      obtain ⟨a1, a2, a3, a4⟩ := ih u2
      have htu : t.id ∉ u := fun h => hc ((scontains_iff u t.id).mpr h)
      have hmono1 : ∀ x ∈ u, x ∈ u2 := fun x hx =>
        (mem_foldl_usedAdd m (usedAdd u t.id) x).mpr (Or.inl (List.mem_cons_of_mem _ hx))
      have htid2 : t.id ∈ u2 :=
        (mem_foldl_usedAdd m (usedAdd u t.id) t.id).mpr (Or.inl (List.mem_cons_self t.id u))
      have hmid2 : ∀ r ∈ m, r.id ∈ u2 := fun r hr =>
        (mem_foldl_usedAdd m (usedAdd u t.id) r.id).mpr (Or.inr ⟨r, hr, rfl⟩)
      have hmnu1 : ∀ r ∈ m, r.id ∉ usedAdd u t.id := by
        intro r hr hmem
        rw [hm] at hr
        obtain ⟨_, hp⟩ := List.mem_filter.mp hr
        rw [Bool.and_eq_true, Bool.not_eq_true'] at hp
        rw [(scontains_iff (usedAdd u t.id) r.id).mpr hmem] at hp
        exact Bool.true_eq_false.mp hp.2
      have hmt : ∀ r ∈ m, r ∈ toolResults := by
        intro r hr
        rw [hm] at hr
        exact (List.mem_filter.mp hr).1
      have hpair : childIds ((t, m) :: (addToolsWithResults toolResults u2 ts).2) =
          (t.id :: m.map fun x => x.id) ++
            childIds (addToolsWithResults toolResults u2 ts).2 := by
        rw [childIds_cons]; rfl
      refine ⟨?_, ?_, ?_, ?_⟩
      · intro x hx
        exact a1 x (hmono1 x hx)
      · intro i hi
        rw [hpair] at hi
        rcases List.mem_append.mp hi with h | h
        · rcases List.mem_cons.mp h with h2 | h2
          · subst h2
            exact ⟨htu, a1 t.id htid2, Or.inl ⟨t, List.mem_cons_self t ts, rfl⟩⟩
          · obtain ⟨r, hrm, hri⟩ := List.mem_map.mp h2
            subst hri
            refine ⟨?_, a1 r.id (hmid2 r hrm), Or.inr ⟨r, hmt r hrm, rfl⟩⟩
            exact fun hiu => hmnu1 r hrm (List.mem_cons_of_mem _ hiu)
        · obtain ⟨b1, b2, hsrc⟩ := a2 i h
          refine ⟨fun hiu => b1 (hmono1 i hiu), b2, ?_⟩
          rcases hsrc with ⟨n, hn, hni⟩ | hr
          · exact Or.inl ⟨n, List.mem_cons_of_mem t hn, hni⟩
          · exact Or.inr hr
      · rw [hpair]
        have hsubm : (m.map fun x => x.id).Sublist (toolResults.map fun x => x.id) := by
          have hsub : m.Sublist toolResults := by
            rw [hm]; exact List.filter_sublist toolResults
          exact hsub.map _
        have nm : (m.map fun x => x.id).Nodup := List.Nodup.sublist hsubm hrs
        have htnm : t.id ∉ m.map fun x => x.id := by
          intro h
          obtain ⟨r, hrm, hri⟩ := List.mem_map.mp h
          exact hmnu1 r hrm (hri ▸ List.mem_cons_self t.id u)
        refine List.Nodup.append (List.nodup_cons.mpr ⟨htnm, nm⟩) a3 ?_
        intro x hx hx2
        have hxu2 : x ∈ u2 := by
          rcases List.mem_cons.mp hx with h2 | h2
          · exact h2 ▸ htid2
          · obtain ⟨r, hrm, hri⟩ := List.mem_map.mp h2
            exact hri ▸ hmid2 r hrm
        exact (a2 x hx2).1 hxu2
      · intro x hx
        rcases a4 x hx with h | h
        · rcases (mem_foldl_usedAdd m (usedAdd u t.id) x).mp h with h2 | ⟨r, hrm, hri⟩
          · rcases List.mem_cons.mp h2 with h3 | h3
            · refine Or.inr ?_
              rw [hpair]
              exact List.mem_append_left _ (h3 ▸ List.mem_cons_self t.id _)
            · exact Or.inl h3
          · refine Or.inr ?_
            rw [hpair]
            exact List.mem_append_left _
              (List.mem_cons_of_mem _ (List.mem_map.mpr ⟨r, hrm, hri⟩))
        · refine Or.inr ?_
          rw [hpair]
          exact List.mem_append_right _ h

/-- Behavior of the orphan-promotion loop (the no-primary-response branch). -/
theorem addOrphanRoots_spec (toolResults : List ConversationNode)
    (hrs : (toolResults.map (fun x => x.id)).Nodup) :
    ∀ (ns : List ConversationNode) (u : List String),
    (∀ x ∈ u, x ∈ (addOrphanRoots toolResults u ns).1) ∧
    (∀ i ∈ forestIds (addOrphanRoots toolResults u ns).2,
      i ∉ u ∧ i ∈ (addOrphanRoots toolResults u ns).1 ∧
        ((∃ n ∈ ns, n.id = i) ∨ ∃ r ∈ toolResults, r.id = i)) ∧
    (forestIds (addOrphanRoots toolResults u ns).2).Nodup ∧
    (∀ x ∈ (addOrphanRoots toolResults u ns).1,
      x ∈ u ∨ x ∈ forestIds (addOrphanRoots toolResults u ns).2) := by
  intro ns
  induction ns with
  | nil =>
    intro u
    refine ⟨fun x h => h, ?_, ?_, fun x h => Or.inl h⟩
    · intro i hi
      simp [addOrphanRoots, forestIds] at hi
    · simp [addOrphanRoots, forestIds]
  | cons t ts ih =>
    intro u
    by_cases hc : (t.type == NodeType.tool_result || u.contains t.id) = true
    · have heq : addOrphanRoots toolResults u (t :: ts) =
          addOrphanRoots toolResults u ts := by
        rw [addOrphanRoots, if_pos hc]
      rw [heq]
      obtain ⟨a1, a2, a3, a4⟩ := ih u
      refine ⟨a1, ?_, a3, a4⟩
      intro i hi
      obtain ⟨b1, b2, hsrc⟩ := a2 i hi
      refine ⟨b1, b2, ?_⟩
      rcases hsrc with ⟨n, hn, hni⟩ | hr
      · exact Or.inl ⟨n, List.mem_cons_of_mem t hn, hni⟩
      · exact Or.inr hr
    · have hcu : ¬ u.contains t.id = true := fun h => hc (by rw [h, Bool.or_true])
      set m := toolResults.filter
        (fun r => r.parentId == some t.id && !(usedAdd u t.id).contains r.id) with hm
      set u2 := m.foldl (fun uu r => usedAdd uu r.id) (usedAdd u t.id) with hu2d
      have heq : addOrphanRoots toolResults u (t :: ts) =
          ((addOrphanRoots toolResults u2 ts).1,
            (t, m.map fun r => (r, [])) :: (addOrphanRoots toolResults u2 ts).2) := by
        rw [addOrphanRoots, if_neg hc]
      rw [heq]
      obtain ⟨a1, a2, a3, a4⟩ := ih u2
      have htu : t.id ∉ u := fun h => hcu ((scontains_iff u t.id).mpr h)
      have hmono1 : ∀ x ∈ u, x ∈ u2 := fun x hx =>
        (mem_foldl_usedAdd m (usedAdd u t.id) x).mpr (Or.inl (List.mem_cons_of_mem _ hx))
      have htid2 : t.id ∈ u2 :=
        (mem_foldl_usedAdd m (usedAdd u t.id) t.id).mpr (Or.inl (List.mem_cons_self t.id u))
      have hmid2 : ∀ r ∈ m, r.id ∈ u2 := fun r hr =>
        (mem_foldl_usedAdd m (usedAdd u t.id) r.id).mpr (Or.inr ⟨r, hr, rfl⟩)
      have hmnu1 : ∀ r ∈ m, r.id ∉ usedAdd u t.id := by
        intro r hr hmem
        rw [hm] at hr
        obtain ⟨_, hp⟩ := List.mem_filter.mp hr
        rw [Bool.and_eq_true, Bool.not_eq_true'] at hp
        rw [(scontains_iff (usedAdd u t.id) r.id).mpr hmem] at hp
        exact Bool.true_eq_false.mp hp.2
      have hmt : ∀ r ∈ m, r ∈ toolResults := by
        intro r hr
        rw [hm] at hr
        exact (List.mem_filter.mp hr).1
      have hpair : forestIds ((t, m.map fun r => (r, [])) ::
            (addOrphanRoots toolResults u2 ts).2) =
          (t.id :: m.map fun x => x.id) ++
            forestIds (addOrphanRoots toolResults u2 ts).2 := by
        rw [forestIds_cons, rootTreeIds_mk, childIds_leaves]
      refine ⟨?_, ?_, ?_, ?_⟩
      · intro x hx
        exact a1 x (hmono1 x hx)
      · intro i hi
        rw [hpair] at hi
        rcases List.mem_append.mp hi with h | h
        · rcases List.mem_cons.mp h with h2 | h2
          · subst h2
            exact ⟨htu, a1 t.id htid2, Or.inl ⟨t, List.mem_cons_self t ts, rfl⟩⟩
          · obtain ⟨r, hrm, hri⟩ := List.mem_map.mp h2
            subst hri
            refine ⟨?_, a1 r.id (hmid2 r hrm), Or.inr ⟨r, hmt r hrm, rfl⟩⟩
            exact fun hiu => hmnu1 r hrm (List.mem_cons_of_mem _ hiu)
        · obtain ⟨b1, b2, hsrc⟩ := a2 i h
          refine ⟨fun hiu => b1 (hmono1 i hiu), b2, ?_⟩
          rcases hsrc with ⟨n, hn, hni⟩ | hr
          · exact Or.inl ⟨n, List.mem_cons_of_mem t hn, hni⟩
          · exact Or.inr hr
      · rw [hpair]
        have hsubm : (m.map fun x => x.id).Sublist (toolResults.map fun x => x.id) := by
          have hsub : m.Sublist toolResults := by
            rw [hm]; exact List.filter_sublist toolResults
          exact hsub.map _
        have nm : (m.map fun x => x.id).Nodup := List.Nodup.sublist hsubm hrs
        have htnm : t.id ∉ m.map fun x => x.id := by
          intro h
          obtain ⟨r, hrm, hri⟩ := List.mem_map.mp h
          exact hmnu1 r hrm (hri ▸ List.mem_cons_self t.id u)
        refine List.Nodup.append (List.nodup_cons.mpr ⟨htnm, nm⟩) a3 ?_
        intro x hx hx2
        have hxu2 : x ∈ u2 := by
          rcases List.mem_cons.mp hx with h2 | h2
          · exact h2 ▸ htid2
          · obtain ⟨r, hrm, hri⟩ := List.mem_map.mp h2
            exact hri ▸ hmid2 r hrm
        exact (a2 x hx2).1 hxu2
      · intro x hx
        rcases a4 x hx with h | h
        · rcases (mem_foldl_usedAdd m (usedAdd u t.id) x).mp h with h2 | ⟨r, hrm, hri⟩
          · rcases List.mem_cons.mp h2 with h3 | h3
            · refine Or.inr ?_
              rw [hpair]
              exact List.mem_append_left _ (h3 ▸ List.mem_cons_self t.id _)
            · exact Or.inl h3
          · refine Or.inr ?_
            rw [hpair]
            exact List.mem_append_left _
              (List.mem_cons_of_mem _ (List.mem_map.mpr ⟨r, hrm, hri⟩))
        · refine Or.inr ?_
          rw [hpair]
          exact List.mem_append_right _ h

/-- Every member of a turn window lies in the sorted list, is unconsumed,
and sits strictly between the turn's bounds. -/
theorem turnWindow_mem (sorted : List ConversationNode) (s : ConversationNode)
    (next : Option ConversationNode) (u0 : List String) :
    ∀ n ∈ turnWindow sorted s next u0,
      n ∈ sorted ∧ n.id ∉ u0 ∧ s.timestamp < n.timestamp ∧
        ∀ t, next = some t → n.timestamp < t.timestamp := by
  intro n hn
  simp only [turnWindow] at hn
  obtain ⟨h1, h2⟩ := List.mem_filter.mp hn
  rw [Bool.and_eq_true, Bool.and_eq_true, Bool.and_eq_true] at h2
  obtain ⟨⟨⟨ha, hb⟩, hc⟩, hd⟩ := h2
  refine ⟨h1, ?_, ?_, ?_⟩
  · rw [Bool.not_eq_true'] at hb
    intro hmem
    rw [(scontains_iff u0 n.id).mpr hmem] at hb
    exact Bool.true_eq_false.mp hb
  · exact of_decide_eq_true hc
  · intro t ht
    rw [ht] at hd
    simpa using hd

/-- A turn window is a sublist of the sorted node list. -/
theorem turnWindow_sublist (sorted : List ConversationNode) (s : ConversationNode)
    (next : Option ConversationNode) (u0 : List String) :
    (turnWindow sorted s next u0).Sublist sorted := by
  simp only [turnWindow]
  exact List.filter_sublist sorted

/-- Behavior of one turn of the regrouping loop: the turn starter is marked
used, every emitted id is the starter's or a fresh id sourced strictly
inside the turn's window, the emitted ids are duplicate-free and all
recorded used, and the used-set grows by exactly the emitted ids. -/
theorem turnStep_spec (sorted : List ConversationNode)
    (hnod : (sorted.map fun x => x.id).Nodup)
    (s : ConversationNode) (next : Option ConversationNode) (used : List String) :
    (∀ x ∈ usedAdd used s.id, x ∈ (turnStep sorted s next used).1) ∧
    (∀ i ∈ forestIds (turnStep sorted s next used).2,
      i ∈ (turnStep sorted s next used).1 ∧
      (i = s.id ∨
        (i ∉ usedAdd used s.id ∧ ∃ n ∈ sorted, n.id = i ∧ s.timestamp < n.timestamp ∧
          ∀ t, next = some t → n.timestamp < t.timestamp))) ∧
    (forestIds (turnStep sorted s next used).2).Nodup ∧
    (∀ x ∈ (turnStep sorted s next used).1,
      x ∈ usedAdd used s.id ∨ x ∈ forestIds (turnStep sorted s next used).2) := by
  set used0 := usedAdd used s.id with hused0
  set TN := turnWindow sorted s next used0 with hTN
  set ATs := TN.filter (fun n => n.type == NodeType.assistant) with hATs
  set TR := TN.filter (fun n => n.type == NodeType.tool_result) with hTR
  have hW : ∀ n ∈ TN, n ∈ sorted ∧ n.id ∉ used0 ∧ s.timestamp < n.timestamp ∧
      ∀ t, next = some t → n.timestamp < t.timestamp := by
    rw [hTN]
    exact turnWindow_mem sorted s next used0
  have hTNsub : TN.Sublist sorted := by
    rw [hTN]
    exact turnWindow_sublist sorted s next used0
  have hTNnod : (TN.map fun x => x.id).Nodup :=
    List.Nodup.sublist (hTNsub.map _) hnod
  have hTRsub : TR.Sublist TN := by
    rw [hTR]
    exact List.filter_sublist TN
  have hrs : (TR.map fun x => x.id).Nodup :=
    List.Nodup.sublist (hTRsub.map _) hTNnod
  have hs0 : s.id ∈ used0 := by
    rw [hused0]
    exact List.mem_cons_self s.id used
  rcases hlast : ATs.getLast? with _ | ai
  · have heq : turnStep sorted s next used =
        ((addOrphanRoots TR used0 TN).1, (s, []) :: (addOrphanRoots TR used0 TN).2) := by
      simp only [turnStep]
      rw [← hused0, ← hTN, ← hATs, hlast]
    rw [heq]
    obtain ⟨a1, a2, a3, a4⟩ := addOrphanRoots_spec TR hrs TN used0
    have hfe : forestIds ((s, []) :: (addOrphanRoots TR used0 TN).2) =
        s.id :: forestIds (addOrphanRoots TR used0 TN).2 := rfl
    refine ⟨?_, ?_, ?_, ?_⟩
    · intro x hx
      exact a1 x hx
    · intro i hi
      rw [hfe] at hi
      rcases List.mem_cons.mp hi with h | h
      · subst h
        exact ⟨a1 s.id hs0, Or.inl rfl⟩
      · obtain ⟨b1, b2, hsrc⟩ := a2 i h
        refine ⟨b2, Or.inr ⟨b1, ?_⟩⟩
        have hsrc2 : ∃ m ∈ TN, m.id = i := by
          rcases hsrc with ⟨n, hn, hni⟩ | ⟨r, hr, hri⟩
          · exact ⟨n, hn, hni⟩
          · exact ⟨r, hTRsub.subset hr, hri⟩
        obtain ⟨m, hm, hmi⟩ := hsrc2
        obtain ⟨hms, _, hts, hbd⟩ := hW m hm
        exact ⟨m, hms, hmi, hts, hbd⟩
    · rw [hfe]
      exact List.nodup_cons.mpr ⟨fun h => (a2 s.id h).1 hs0, a3⟩
    · intro x hx
      rcases a4 x hx with h | h
      · exact Or.inl h
      · refine Or.inr ?_
        rw [hfe]
        exact List.mem_cons_of_mem _ h
  · set used1 := usedAdd used0 ai.id with hused1
    set TH := TN.filter (fun n => n.type == NodeType.thinking) with hTH
    set TC := TN.filter isToolFamily with hTC
    set OA := ATs.filter (fun n => !(n.id == ai.id)) with hOA
    set R1 := addChildLeaves used1 TH with hR1
    set R2 := addToolsWithResults TR R1.1 TC with hR2
    set R3 := addChildLeaves R2.1 OA with hR3
    have heq : turnStep sorted s next used =
        (R3.1, [(s, []), (ai, sortTsP (R1.2 ++ R2.2 ++ R3.2))]) := by
      simp only [turnStep]
      rw [← hused0, ← hTN, ← hATs, hlast]
    rw [heq]
    obtain ⟨s1a, s1b, s1c, s1d⟩ := addChildLeaves_spec TH used1
    obtain ⟨s2a, s2b, s2c, s2d⟩ := addToolsWithResults_spec TR hrs TC R1.1
    obtain ⟨s3a, s3b, s3c, s3d⟩ := addChildLeaves_spec OA R2.1
    have hu01 : ∀ x ∈ used0, x ∈ used1 := by
      intro x h
      rw [hused1]
      exact List.mem_cons_of_mem _ h
    have hu0R1 : ∀ x ∈ used0, x ∈ R1.1 := fun x h => s1a x (hu01 x h)
    have hu0R2 : ∀ x ∈ used0, x ∈ R2.1 := fun x h => s2a x (hu0R1 x h)
    have hu0R3 : ∀ x ∈ used0, x ∈ R3.1 := fun x h => s3a x (s2a x (s1a x (hu01 x h)))
    have hu1R3 : ∀ x ∈ used1, x ∈ R3.1 := fun x h => s3a x (s2a x (s1a x h))
    have haiATs : ai ∈ ATs := List.mem_of_mem_getLast? hlast
    have haiTN : ai ∈ TN := by
      rw [hATs] at haiATs
      exact List.mem_of_mem_filter haiATs
    obtain ⟨haiS, haiNU0, haiTs, haiBd⟩ := hW ai haiTN
    have hai1 : ai.id ∈ used1 := by
      rw [hused1]
      exact List.mem_cons_self ai.id used0
    have hfe : forestIds [(s, []), (ai, sortTsP (R1.2 ++ R2.2 ++ R3.2))] =
        s.id :: ai.id :: childIds (sortTsP (R1.2 ++ R2.2 ++ R3.2)) := by
      rw [forestIds_cons, forestIds_cons, rootTreeIds_mk, rootTreeIds_mk]
      simp [childIds, forestIds]
    have hperm : (childIds (sortTsP (R1.2 ++ R2.2 ++ R3.2))).Perm
        (childIds R1.2 ++ childIds R2.2 ++ childIds R3.2) := by
      have h1 : (sortTsP (R1.2 ++ R2.2 ++ R3.2)).Perm (R1.2 ++ R2.2 ++ R3.2) :=
        List.perm_insertionSort tsLeP _
      have h2 := childIds_perm _ _ h1
      rw [childIds_append, childIds_append] at h2
      exact h2
    have hsrcCH : ∀ i ∈ childIds (sortTsP (R1.2 ++ R2.2 ++ R3.2)),
        i ∉ used1 ∧ i ∈ R3.1 ∧ ∃ m ∈ TN, m.id = i := by
      intro i hi
      rcases List.mem_append.mp (hperm.mem_iff.mp hi) with h12 | h3
      · rcases List.mem_append.mp h12 with h1 | h2
        · obtain ⟨b1, b2, n, hn, hni⟩ := s1b i h1
          refine ⟨b1, s3a i (s2a i b2), n, ?_, hni⟩
          rw [hTH] at hn
          exact List.mem_of_mem_filter hn
        · obtain ⟨b1, b2, hsrc⟩ := s2b i h2
          refine ⟨fun h => b1 (s1a i h), s3a i b2, ?_⟩
          rcases hsrc with ⟨n, hn, hni⟩ | ⟨r, hr, hri⟩
          · refine ⟨n, ?_, hni⟩
            rw [hTC] at hn
            exact List.mem_of_mem_filter hn
          · exact ⟨r, hTRsub.subset hr, hri⟩
      · obtain ⟨b1, b2, n, hn, hni⟩ := s3b i h3
        refine ⟨fun h => b1 (s2a i (s1a i h)), b2, n, ?_⟩
        rw [hOA] at hn
        have hn2 : n ∈ ATs := List.mem_of_mem_filter hn
        rw [hATs] at hn2
        exact ⟨List.mem_of_mem_filter hn2, hni⟩
    refine ⟨?_, ?_, ?_, ?_⟩
    · intro x hx
      exact hu0R3 x hx
    · intro i hi
      rw [hfe] at hi
      rcases List.mem_cons.mp hi with h | h
      · subst h
        exact ⟨hu0R3 s.id hs0, Or.inl rfl⟩
      · rcases List.mem_cons.mp h with h2 | h2
        · subst h2
          exact ⟨hu1R3 ai.id hai1, Or.inr ⟨haiNU0, ai, haiS, rfl, haiTs, haiBd⟩⟩
        · obtain ⟨hb1, hb2, m, hm, hmi⟩ := hsrcCH i h2
          obtain ⟨hms, _, hts, hbd⟩ := hW m hm
          exact ⟨hb2, Or.inr ⟨fun h0 => hb1 (hu01 i h0), m, hms, hmi, hts, hbd⟩⟩
    · rw [hfe]
      have hCHnodup : (childIds (sortTsP (R1.2 ++ R2.2 ++ R3.2))).Nodup := by
        refine hperm.nodup_iff.mpr ?_
        refine List.Nodup.append (List.Nodup.append s1c s2c ?_) s3c ?_
        · intro a h1 h2
          exact (s2b a h2).1 ((s1b a h1).2.1)
        · intro a h12 h3
          rcases List.mem_append.mp h12 with h1 | h2
          · exact (s3b a h3).1 (s2a a ((s1b a h1).2.1))
          · exact (s3b a h3).1 ((s2b a h2).2.1)
      have hainCH : ai.id ∉ childIds (sortTsP (R1.2 ++ R2.2 ++ R3.2)) :=
        fun h => (hsrcCH ai.id h).1 hai1
      have hsnCH : s.id ∉ childIds (sortTsP (R1.2 ++ R2.2 ++ R3.2)) :=
        fun h => (hsrcCH s.id h).1 (hu01 s.id hs0)
      have hsne : s.id ≠ ai.id := fun h => haiNU0 (h ▸ hs0)
      refine List.nodup_cons.mpr ⟨?_, List.nodup_cons.mpr ⟨hainCH, hCHnodup⟩⟩
      intro h
      rcases List.mem_cons.mp h with h2 | h2
      · exact hsne h2
      · exact hsnCH h2
    · intro x hx
      rcases s3d x hx with h | h
      · rcases s2d x h with h2 | h2
        · rcases s1d x h2 with h3 | h3
          · rcases List.mem_cons.mp (hused1 ▸ h3) with h4 | h4
            · refine Or.inr ?_
              rw [hfe, h4]
              exact List.mem_cons_of_mem _ (List.mem_cons_self _ _)
            · exact Or.inl h4
          · refine Or.inr ?_
            rw [hfe]
            refine List.mem_cons_of_mem _ (List.mem_cons_of_mem _ ?_)
            exact hperm.mem_iff.mpr
              (List.mem_append_left _ (List.mem_append_left _ h3))
        · refine Or.inr ?_
          rw [hfe]
          refine List.mem_cons_of_mem _ (List.mem_cons_of_mem _ ?_)
          exact hperm.mem_iff.mpr
            (List.mem_append_left _ (List.mem_append_right _ h2))
      · refine Or.inr ?_
        rw [hfe]
        refine List.mem_cons_of_mem _ (List.mem_cons_of_mem _ ?_)
        exact hperm.mem_iff.mpr (List.mem_append_right _ h)

/-- A forest of childless roots contributes exactly the roots' ids. -/
theorem forestIds_rootLeaves (rs : List ConversationNode) :
    forestIds (rs.map fun r => (r, [])) = rs.map fun x => x.id := by
  induction rs with
  | nil => rfl
  | cons r rs ih =>
    rw [List.map_cons, forestIds_cons, rootTreeIds_mk, List.map_cons, ih]
    rfl

/-- The per-turn loop of the regrouping pass emits duplicate-free ids, and
every emitted id belongs to a starter or was outside the incoming
used-set. -/
theorem reorgTurns_spec (sorted : List ConversationNode)
    (hnod : (sorted.map fun x => x.id).Nodup) :
    ∀ (starters : List ConversationNode) (used : List String),
    List.Pairwise tsLe starters →
    ((starters.map fun x => x.id).Nodup) →
    (∀ n ∈ starters, n ∈ sorted) →
    (∀ n ∈ starters, n.id ∉ used) →
    (forestIds (reorgTurns sorted starters used)).Nodup ∧
    (∀ i ∈ forestIds (reorgTurns sorted starters used),
      (∃ n ∈ starters, n.id = i) ∨ i ∉ used) := by
  intro starters
  induction starters with
  | nil =>
    intro used _ _ _ _
    constructor
    · simp [reorgTurns, forestIds]
    · intro i hi
      simp [reorgTurns, forestIds] at hi
  | cons s rest ih =>
    intro used hpw hnd hmem hnu
    have heq : reorgTurns sorted (s :: rest) used =
        (turnStep sorted s rest.head? used).2 ++
          reorgTurns sorted rest (turnStep sorted s rest.head? used).1 := by
      simp only [reorgTurns]
    rw [heq, forestIds_append]
    obtain ⟨tA, tB, tC, tD⟩ := turnStep_spec sorted hnod s rest.head? used
    have hsid : s.id ∉ used := hnu s (List.mem_cons_self s rest)
    rw [List.map_cons] at hnd
    obtain ⟨hsR, hndR⟩ := List.nodup_cons.mp hnd
    obtain ⟨hpwS, hpwR⟩ := List.pairwise_cons.mp hpw
    have hkey : ∀ n ∈ rest, n.id ∉ forestIds (turnStep sorted s rest.head? used).2 := by
      intro n hn hmemF
      obtain ⟨_, hcase⟩ := tB n.id hmemF
      rcases hcase with h | ⟨hnu0, m, hms, hmi, hts, hbd⟩
      · exact hsR (List.mem_map.mpr ⟨n, hn, h⟩)
      · cases rest with
        | nil => cases hn
        | cons a l =>
          have hmlt : m.timestamp < a.timestamp := hbd a rfl
          have han : a.timestamp ≤ n.timestamp := by
            rcases List.mem_cons.mp hn with h2 | h2
            · exact Nat.le_of_eq (congrArg ConversationNode.timestamp h2.symm)
            · exact (List.pairwise_cons.mp hpwR).1 n h2
          have hmn : m = n :=
            List.inj_on_of_nodup_map hnod hms (hmem n (List.mem_cons_of_mem s hn)) hmi
          rw [hmn] at hmlt
          exact absurd (Nat.lt_of_lt_of_le hmlt han) (Nat.lt_irrefl _)
    have h4R : ∀ n ∈ rest, n.id ∉ (turnStep sorted s rest.head? used).1 := by
      intro n hn hmem1
      rcases tD n.id hmem1 with h | h
      · rcases List.mem_cons.mp h with h2 | h2
        · exact hsR (List.mem_map.mpr ⟨n, hn, h2⟩)
        · exact hnu n (List.mem_cons_of_mem s hn) h2
      · exact hkey n hn h
    obtain ⟨r1, r2⟩ := ih (turnStep sorted s rest.head? used).1 hpwR hndR
      (fun n hn => hmem n (List.mem_cons_of_mem s hn)) h4R
    constructor
    · refine List.Nodup.append tC r1 ?_
      intro a ha hb
      rcases r2 a hb with ⟨n, hn, hni⟩ | h
      · exact hkey n hn (hni.symm ▸ ha)
      · exact h ((tB a ha).1)
    · intro i hi
      rcases List.mem_append.mp hi with h | h
      · obtain ⟨_, hcase⟩ := tB i h
        rcases hcase with h2 | ⟨hn0, _, _, _, _, _⟩
        · exact Or.inl ⟨s, List.mem_cons_self s rest, h2.symm⟩
        · exact Or.inr (fun hu => hn0 (List.mem_cons_of_mem _ hu))
      · rcases r2 i h with ⟨n, hn, hni⟩ | h2
        · exact Or.inl ⟨n, List.mem_cons_of_mem s hn, hni⟩
        · exact Or.inr (fun hu => h2 (tA i (List.mem_cons_of_mem _ hu)))

/-- C1: in the tree returned by the reorganization pass over a registry
with duplicate-free node identifiers, every identifier appears at most
once - never both as a root and as a nested child, and never twice.  (The
"exactly once" half of the claim fails: see the counterexample, where an
orphaned tool result held in the registry appears zero times.) -/
theorem claim_C1 (store : List ConversationNode)
    (hnd : (store.map fun n => n.id).Nodup) :
    (forestIds (buildTree store)).Nodup := by
  have hndA : ((store.map resetChildren).map fun x => x.id).Nodup := by
    rw [List.map_map]
    exact hnd
  set arr := store.map resetChildren with harrd
  set roots := buildTreeRoots arr with hroots
  set allN := flattenTree arr roots with hallN
  set srt := sortTs allN with hsrt
  set starters := srt.filter isTurnStarter with hstarters
  have hbt : buildTree store = reorganizeForDisplay arr roots := by
    simp only [buildTree]
  rw [hbt]
  have hRootsNod : (forestIds (roots.map fun r => (r, []))).Nodup := by
    rw [forestIds_rootLeaves, hroots]
    exact roots_ids_nodup arr hndA
  by_cases hE : allN.isEmpty = true
  · have heq : reorganizeForDisplay arr roots = roots.map (fun r => (r, [])) := by
      simp only [reorganizeForDisplay]
      rw [← hallN, if_pos hE]
    rw [heq]
    exact hRootsNod
  · by_cases hS : starters.isEmpty = true
    · have heq : reorganizeForDisplay arr roots = roots.map (fun r => (r, [])) := by
        simp only [reorganizeForDisplay]
        rw [← hallN, if_neg hE, ← hsrt, ← hstarters, if_pos hS]
      rw [heq]
      exact hRootsNod
    · have heq : reorganizeForDisplay arr roots = reorgTurns srt starters [] := by
        simp only [reorganizeForDisplay]
        rw [← hallN, if_neg hE, ← hsrt, ← hstarters, if_neg hS]
      rw [heq]
      have hAllNod : (allN.map fun x => x.id).Nodup := by
        rw [hallN, hroots]
        exact flattenTree_nodup arr hndA
      have hsrtNod : (srt.map fun x => x.id).Nodup := by
        rw [hsrt]
        exact ((List.perm_insertionSort tsLe allN).map (fun x => x.id)).nodup_iff.mpr hAllNod
      have hsrtP : List.Pairwise tsLe srt := by
        rw [hsrt]
        exact List.sorted_insertionSort tsLe allN
      have hstSub : starters.Sublist srt := by
        rw [hstarters]
        exact List.filter_sublist srt
      have hstP : List.Pairwise tsLe starters := List.Pairwise.sublist hstSub hsrtP
      have hstNod : (starters.map fun x => x.id).Nodup :=
        List.Nodup.sublist (hstSub.map _) hsrtNod
      obtain ⟨hN, _⟩ := reorgTurns_spec srt hsrtNod starters []
        hstP hstNod (fun n hn => hstSub.subset hn) (fun n _ => by simp)
      exact hN

/-- C1 counterexample: the registry holds the orphaned tool result `r1`
(its declared parent invocation does not exist), yet the reorganized tree
contains no node with id `r1` - the identifier appears zero times, not
exactly once. -/
theorem claim_C1_cex :
    ("r1" ∈ c1CexStore.map fun n => n.id) ∧
      (forestIds (buildTree c1CexStore)).count "r1" = 0 := by
  decide

/-- C1 witness: a concrete duplicate-free registry on which the at-most-once
guarantee is instantiated. -/
theorem claim_C1_witness :
    ((c1WitStore.map fun n => n.id).Nodup) ∧
      (forestIds (buildTree c1WitStore)).Nodup :=
  ⟨by decide, claim_C1 c1WitStore (by decide)⟩
